import Mathlib

/-!
Shallow embedding of the SimpleSqlRs in-memory table engine
(src/value.rs, src/column.rs, src/table.rs).

Cells (`Value` in the source) are Lean `String`s: the Rust type wraps an
immutable string with content equality/ordering.  The Rust `HashMap`s
(the table's name → column map and the column index) are modelled as
association lists with unique keys; the list order stands for the map's
unspecified iteration order.  The column's lazily cached index
(`RefCell<Option<ColumnIndex>>`) is an `Option` field, and `get_index`
returns the index together with the updated column state.  Fallible
operations return `Except String` mirroring `Res<T> = Result<T, String>`.
-/

namespace SimpleSql

/-- Association-list lookup, mirroring `HashMap::get`: the first entry
with the given key (keys are unique in every map the code builds). -/
def alookup {β : Type} : List (String × β) → String → Option β
  | [], _ => none
  | p :: l, k => if p.1 = k then some p.2 else alookup l k

/-- Association-list insert, mirroring `HashMap::insert`: overwrite the
value if the key is present, otherwise add a new entry. -/
def ainsert {β : Type} : List (String × β) → String → β → List (String × β)
  | [], k, v => [(k, v)]
  | p :: l, k, v => if p.1 = k then (k, v) :: l else p :: ainsert l k v

/-- `ColumnIndex` from src/column.rs: value → ascending positions. -/
abbrev ColumnIndex : Type := List (String × List Nat)

/-- `Column` from src/column.rs: the fixed cell data plus the lazily
cached index (`maybe_index: RefCell<Option<ColumnIndex>>`). -/
structure Column where
  cells : List String
  maybe_index : Option ColumnIndex
deriving DecidableEq

/-- `Column::new`: wraps cells, no index yet. -/
def Column.new (cells : List String) : Column := ⟨cells, none⟩

/-- `Column::len`. -/
def Column.len (c : Column) : Nat := c.cells.length

/-- `Column::remap`: new column (fresh, index-free) whose i-th cell is
`cells[positions[i]]`. -/
def Column.remap (c : Column) (positions : List Nat) : Column :=
  Column.new (positions.map (fun i => c.cells.getD i ""))

/-- One step of the index-building loop in `Column::get_index`: record
position `i` for value `v` (append to the existing position list, or
start a fresh singleton list). -/
def idxInsert (m : ColumnIndex) (v : String) (i : Nat) : ColumnIndex :=
  match alookup m v with
  | some l => ainsert m v (l ++ [i])
  | none => m ++ [(v, [i])]

/-- The index built by the scan loop in `Column::get_index`. -/
def buildIndex (cells : List String) : ColumnIndex :=
  cells.enum.foldl (fun m pv => idxInsert m pv.2 pv.1) []

/-- `Column::get_index`: return the cached index if present, otherwise
build it, cache it and return it.  The pair is (index, column state
after the call). -/
def Column.get_index (c : Column) : ColumnIndex × Column :=
  match c.maybe_index with
  | some idx => (idx, c)
  | none =>
    let idx := buildIndex c.cells
    (idx, { c with maybe_index := some idx })

/-- `Column::has_index`. -/
def Column.has_index (c : Column) : Bool := c.maybe_index.isSome

/-- `Op` from src/table.rs: a column name and an aggregation function. -/
structure Op where
  column_name : String
  operation : List String → String

/-- `MiOp` from src/table.rs: input column names, output column name and
a row function. -/
structure MiOp where
  in_columns : List String
  out_column : String
  operation : List String → String

/-- `Table` from src/table.rs: `columns: HashMap<Value, Column>`. -/
structure Table where
  columns : List (String × Column)
deriving DecidableEq

/-- `Table::columns_count`. -/
def Table.columns_count (t : Table) : Nat := t.columns.length

/-- `Table::rows_count`: length of an arbitrary column (the model reads
the head of the list), 0 for a table without columns. -/
def Table.rows_count (t : Table) : Nat :=
  (t.columns.head?.map (fun p => p.2.len)).getD 0

/-- `Table::column`: lookup, Missing-Column error if absent. -/
def Table.column (t : Table) (col_name : String) : Except String Column :=
  match alookup t.columns col_name with
  | some c => .ok c
  | none => .error ("colonna " ++ col_name ++ " non esiste")

/-- `Table::select_columns`. -/
def Table.select_columns (t : Table) (col_names : List String) :
    Except String Table := do
  let cols ← col_names.foldlM
    (fun acc n => do
      let c ← t.column n
      pure (ainsert acc n c))
    ([] : List (String × Column))
  pure ⟨cols⟩

/-- The usize width: `columns.len() - 1` in `deselect_column` is a usize
subtraction, which wraps in release builds (and panics in debug). -/
def USIZE : Nat := 2 ^ 64

/-- `Table::deselect_column`: copy every column whose name differs, then
compare the new size with `self.columns.len() - 1` (usize, wrapping). -/
def Table.deselect_column (t : Table) (col_name : String) :
    Except String Table :=
  let cols := t.columns.foldl
    (fun acc p => if col_name == p.1 then acc else ainsert acc p.1 p.2) []
  if cols.length ≠ (t.columns.length + USIZE - 1) % USIZE then
    .error ("colonna " ++ col_name ++ " non esiste")
  else .ok ⟨cols⟩

/-- `Table::rename_column`: rebuild the map, inserting the column under
the new name when its name matches `old_col_name`; the `Bool` carries
the `not_found` flag. -/
def Table.rename_column (t : Table) (old_col_name new_col_name : String) :
    Except String Table :=
  let st := t.columns.foldl
    (fun (acc : List (String × Column) × Bool) p =>
      if old_col_name == p.1 then (ainsert acc.1 new_col_name p.2, false)
      else (ainsert acc.1 p.1 p.2, acc.2))
    ([], true)
  if st.2 then .error ("colonna " ++ old_col_name ++ " non esiste")
  else .ok ⟨st.1⟩

/-- `Table::remap`: apply one position list to every column. -/
def Table.remap (t : Table) (positions : List Nat) : Table :=
  ⟨t.columns.map (fun p => (p.1, p.2.remap positions))⟩

/-- `Table::filter_column`: keep the rows whose value satisfies the
predicate; when every row is retained return the cheap clone. -/
def Table.filter_column (t : Table) (col_name : String)
    (filter : String → Bool) : Except String Table := do
  let column ← t.column col_name
  let retained_positions := column.cells.enum.filterMap
    (fun iv => if filter iv.2 then some iv.1 else none)
  pure (if retained_positions.length == t.rows_count then t
        else t.remap retained_positions)

/-- `Table::diff_on_columns`: anti-join through the other key column's
index (`contains_key`). -/
def Table.diff_on_columns (t : Table) (col_name_self : String)
    (other : Table) (col_name_other : String) : Except String Table := do
  let column_self ← t.column col_name_self
  let column_other ← other.column col_name_other
  let other_index := column_other.get_index.1
  let retained_positions := column_self.cells.enum.filterMap
    (fun pv => if (alookup other_index pv.2).isSome then none else some pv.1)
  pure (t.remap retained_positions)

/-- `Table::map_column`: replace the named column's cells elementwise. -/
def Table.map_column (t : Table) (col_name : String)
    (map : String → String) : Except String Table := do
  let col ← t.column col_name
  pure ⟨t.columns.map (fun p =>
    if col_name == p.1 then (p.1, Column.new (col.cells.map map)) else p)⟩

/-- `Table::dinstinct_column` (source spelling): keep the first row for
each value of the named column; the accumulator pairs the `found` set
with the kept positions. -/
def Table.dinstinct_column (t : Table) (col_name : String) :
    Except String Table := do
  let col ← t.column col_name
  let positions := (col.cells.enum.foldl
    (fun (st : List String × List Nat) pv =>
      if st.1.contains pv.2 then st
      else (pv.2 :: st.1, st.2 ++ [pv.1]))
    ([], [])).2
  pure (t.remap positions)

/-- Stable insertion of one element into an already processed list,
used to model the stable `sort_by` of the source. -/
def insertStable {α : Type} (le : α → α → Bool) (a : α) :
    List α → List α
  | [] => [a]
  | b :: bs => if le b a then b :: insertStable le a bs else a :: b :: bs

/-- Stable sort (model of Rust's stable `sort_by`/`sort_by_key`). -/
def sortStable {α : Type} (le : α → α → Bool) : List α → List α
  | [] => []
  | a :: as => insertStable le a (sortStable le as)

/-- `Table::sort_column`: stable sort of the rows by the named column's
value, then remap every column to the new order. -/
def Table.sort_column (t : Table) (col_name : String) :
    Except String Table := do
  let col ← t.column col_name
  let sorted := sortStable (fun a b => a.2 ≤ b.2) col.cells.enum
  pure (t.remap (sorted.map (fun pv => pv.1)))

/-- `Table::sort_column_by`: same with a caller-supplied comparator. -/
def Table.sort_column_by (t : Table) (col_name : String)
    (order : String → String → Ordering) : Except String Table := do
  let col ← t.column col_name
  let sorted := sortStable (fun a b => order a.2 b.2 ≠ Ordering.gt)
    col.cells.enum
  pure (t.remap (sorted.map (fun pv => pv.1)))

/-- `Table::concatenate`: append the other table's rows column by
column; a column of self missing from other is an error. -/
def Table.concatenate (t : Table) (other : Table) : Except String Table := do
  let cols ← t.columns.mapM (fun p => do
    let msg := "la seconda table in concatenazione non ha la colonna " ++ p.1
    let other_col ←
      match alookup other.columns p.1 with
      | some c => Except.ok c
      | none => Except.error msg
    pure (p.1, Column.new (p.2.cells ++ other_col.cells)))
  pure ⟨cols⟩

/-- `Table::create_fixed_column`: insert (or overwrite) a column holding
one fixed value per row. -/
def Table.create_fixed_column (t : Table) (col_name fixed_value : String) :
    Table :=
  ⟨ainsert t.columns col_name
    (Column.new (List.replicate t.rows_count fixed_value))⟩

/-- `Table::create_column`: derive one new/overwritten column by applying
the descriptor's function to each row's tuple of input values. -/
def Table.create_column (t : Table) (expr : MiOp) : Except String Table := do
  let inputs_cols ← expr.in_columns.mapM t.column
  let col_rows := (List.range t.rows_count).map
    (fun position =>
      expr.operation (inputs_cols.map (fun col => col.cells.getD position "")))
  pure ⟨ainsert t.columns expr.out_column (Column.new col_rows)⟩

/-- `Table::concatenate_columns`: rowwise `col1 + separator + col2`. -/
def Table.concatenate_columns (t : Table) (col_1 : String) (separator : Char)
    (col_2 new_col : String) : Except String Table := do
  let c1 ← t.column col_1
  let c2 ← t.column col_2
  let cells := (c1.cells.zip c2.cells).map
    (fun ab => ab.1 ++ separator.toString ++ ab.2)
  pure ⟨ainsert t.columns new_col (Column.new cells)⟩

/-- The join heuristic of `join_on_columns`: index self when self's key
column already has an index, or neither has one and self has at most as
many rows as other. -/
def joinCond (column_self column_other : Column) : Bool :=
  column_self.has_index ||
    (!column_other.has_index && column_self.len ≤ column_other.len)

/-- The probing loop of `join_on_columns`: for every position of the
probing key column, look its value up in the index and extend the two
remap position lists. -/
def probePairs (self_index : ColumnIndex) (other_cells : List String) :
    List Nat × List Nat :=
  other_cells.enum.foldl
    (fun acc pv =>
      match alookup self_index pv.2 with
      | some ps => (acc.1 ++ ps, acc.2 ++ List.replicate ps.length pv.1)
      | none => acc)
    ([], [])

/-- `table1.columns.extend(table2.columns)`: insert every entry of the
second map into the first, overwriting on collision. -/
def Table.extend (t1 t2 : Table) : Table :=
  ⟨t2.columns.foldl (fun acc p => ainsert acc p.1 p.2) t1.columns⟩

/-- The indexed branch of `join_on_columns`: build/use the index of
self's key column, probe every row of other's key column, remap both
tables and merge the column maps (probing side overwrites). -/
def joinIndexed (t : Table) (other : Table)
    (column_self column_other : Column) : Table :=
  let self_index := column_self.get_index.1
  let pp := probePairs self_index column_other.cells
  Table.extend (t.remap pp.1) (other.remap pp.2)

/-- Fuelled form of the recursive `join_on_columns`; the recursion depth
is at most one swap, so fuel 2 (used below) never runs out. -/
def join_go : Nat → Table → String → Table → String → Except String Table
  | 0, _, _, _, _ => .error "join fuel exhausted"
  | n + 1, t, col_name_self, other, col_name_other => do
    let column_self ← t.column col_name_self
    let column_other ← other.column col_name_other
    if joinCond column_self column_other then
      pure (joinIndexed t other column_self column_other)
    else
      join_go n other col_name_other t col_name_self

/-- `Table::join_on_columns`. -/
def Table.join_on_columns (t : Table) (col_name_self : String)
    (other : Table) (col_name_other : String) : Except String Table :=
  join_go 2 t col_name_self other col_name_other

/-- `Table::group_by_column`: partition through the grouping column's
index; one aggregated column per descriptor, every remaining column
keeps the value at the group's first recorded position. -/
def Table.group_by_column (t : Table) (col_name : String)
    (column_operations : List Op) : Except String Table := do
  let group_column ← t.column col_name
  let groups_index := group_column.get_index.1
  let cols1 ← column_operations.foldlM
    (fun (acc : List (String × Column)) op => do
      let col ← t.column op.column_name
      let new_cells := groups_index.map
        (fun e => op.operation (e.2.map (fun p => col.cells.getD p "")))
      pure (ainsert acc op.column_name (Column.new new_cells)))
    []
  let cols2 ← t.columns.foldlM
    (fun (acc : List (String × Column)) p =>
      if (alookup acc p.1).isSome then pure acc
      else do
        let col ← t.column p.1
        let new_cells := groups_index.map
          (fun e => col.cells.getD (e.2.headD 0) "")
        pure (ainsert acc p.1 (Column.new new_cells)))
    cols1
  pure ⟨cols2⟩

/-- `TableBuilder`. -/
structure TableBuilder where
  columns : List (String × List String)
deriving DecidableEq

/-- `TableBuilder::new`. -/
def TableBuilder.new (column_names : List String) : TableBuilder :=
  ⟨column_names.map (fun n => (n, []))⟩

/-- `TableBuilder::add_row`: reject a row of the wrong width, otherwise
push each cell onto its column. -/
def TableBuilder.add_row (b : TableBuilder) (cells : List String) :
    Except String TableBuilder :=
  if cells.length ≠ b.columns.length then
    .error ("fornita riga di lunghezza " ++ toString cells.length ++
      " ma dovrebbe essere " ++ toString b.columns.length)
  else
    .ok ⟨(b.columns.zip cells).map (fun pc => (pc.1.1, pc.1.2 ++ [pc.2]))⟩

/-- `TableBuilder::build`: insert one column per accumulated name. -/
def TableBuilder.build (b : TableBuilder) : Table :=
  ⟨b.columns.foldl (fun acc p => ainsert acc p.1 (Column.new p.2)) []⟩

/-- Rust `char::is_whitespace`: the Unicode `White_Space` property
(U+0009–U+000D, space, NEL, NBSP, Ogham space, U+2000–U+200A, line and
paragraph separators, NNBSP, MMSP, ideographic space). -/
def rustIsWhitespace (c : Char) : Bool :=
  c.toNat == 0x9 || c.toNat == 0xA || c.toNat == 0xB || c.toNat == 0xC ||
  c.toNat == 0xD || c.toNat == 0x20 || c.toNat == 0x85 ||
  c.toNat == 0xA0 || c.toNat == 0x1680 ||
  (decide (0x2000 ≤ c.toNat) && decide (c.toNat ≤ 0x200A)) ||
  c.toNat == 0x2028 || c.toNat == 0x2029 || c.toNat == 0x202F ||
  c.toNat == 0x205F || c.toNat == 0x3000

/-- Rust `str::trim` on the character list of a field: strip leading and
trailing Unicode whitespace. -/
def trimChars (l : List Char) : List Char :=
  ((l.dropWhile rustIsWhitespace).reverse.dropWhile rustIsWhitespace).reverse

/-- Join character lists with a separator character (`join("\t")`,
`join("\n")` in the source). -/
def joinSep (sep : Char) (ls : List (List Char)) : List Char :=
  List.intercalate [sep] ls

/-- Rust `str::lines` on a character list: split on the newline, drop
the piece after a final newline, strip one trailing carriage return from
each line. -/
def rustLines (l : List Char) : List (List Char) :=
  let p := l.splitOn '\n'
  let p := if p.getLast? = some [] then p.dropLast else p
  p.map (fun line =>
    if line.getLast? = some (Char.ofNat 13) then line.dropLast else line)

/-- `Table::parse_tsv`: skip lines, skip leading blank lines, read the
header (tab-split, trimmed), then add every non-blank line as a row. -/
def Table.parse_tsv (input : String) (skip_lines : Nat) :
    Except String Table := do
  let ls := ((rustLines input.data).drop skip_lines).dropWhile List.isEmpty
  match ls with
  | [] => .error "mancano i nomi di colonna"
  | header :: rest => do
    let builder := TableBuilder.new
      ((header.splitOn '\t').map (fun f => String.mk (trimChars f)))
    let builder ← rest.foldlM
      (fun (b : TableBuilder) line =>
        if line.isEmpty then pure b
        else b.add_row ((line.splitOn '\t').map
          (fun f => String.mk (trimChars f))))
      builder
    pure builder.build

/-- The line serialized for one row by `Table::to_tsv`. -/
def tsvRowLine (cols : List Column) (row : Nat) : List Char :=
  joinSep '\t' (cols.map (fun col => (col.cells.getD row "").data))

/-- `Table::to_tsv`: the header line followed by one tab-joined line per
row, all newline-joined. -/
def Table.to_tsv (t : Table) (header : List String) : Except String String := do
  let cols ← header.mapM t.column
  pure (String.mk (joinSep '\n'
    (joinSep '\t' (header.map String.data) ::
      (List.range t.rows_count).map (tsvRowLine cols))))

/-! ### Association-list lemmas -/

/-- Unique keys, the invariant every `HashMap` in the source maintains. -/
def NodupKeys {β : Type} (l : List (String × β)) : Prop :=
  (l.map Prod.fst).Nodup

instance {β : Type} [DecidableEq β] (l : List (String × β)) :
    Decidable (NodupKeys l) := by
  unfold NodupKeys
  infer_instance

theorem alookup_nil {β : Type} (k : String) :
    alookup ([] : List (String × β)) k = none := rfl

theorem alookup_cons {β : Type} (p : String × β) (l : List (String × β))
    (k : String) :
    alookup (p :: l) k = if p.1 = k then some p.2 else alookup l k := rfl

theorem alookup_append {β : Type} (l1 l2 : List (String × β)) (k : String) :
    alookup (l1 ++ l2) k =
      match alookup l1 k with
      | some v => some v
      | none => alookup l2 k := by
  induction l1 with
  | nil => simp [alookup_nil]
  | cons p l ih =>
    rw [List.cons_append, alookup_cons, alookup_cons]
    by_cases h : p.1 = k <;> simp [h, ih]

theorem alookup_eq_none_iff {β : Type} (l : List (String × β)) (k : String) :
    alookup l k = none ↔ k ∉ l.map Prod.fst := by
  induction l with
  | nil => simp [alookup_nil]
  | cons p l ih =>
    rw [alookup_cons, List.map_cons, List.mem_cons]
    by_cases h : p.1 = k
    · simp [h]
    · simp only [h, if_false, ih]
      constructor
      · rintro hk (h1 | h1)
        · exact h h1.symm
        · exact hk h1
      · intro hk h1
        exact hk (Or.inr h1)

theorem alookup_isSome_iff {β : Type} (l : List (String × β)) (k : String) :
    (alookup l k).isSome = true ↔ k ∈ l.map Prod.fst := by
  rw [← Decidable.not_iff_not, ← alookup_eq_none_iff]
  cases alookup l k <;> simp

theorem alookup_ainsert_self {β : Type} (l : List (String × β))
    (k : String) (v : β) : alookup (ainsert l k v) k = some v := by
  induction l with
  | nil => simp [ainsert, alookup_cons]
  | cons p l ih =>
    rw [ainsert]
    by_cases h : p.1 = k <;> simp [h, alookup_cons, ih]

theorem alookup_ainsert_ne {β : Type} (l : List (String × β))
    (k k2 : String) (v : β) (h : k2 ≠ k) :
    alookup (ainsert l k v) k2 = alookup l k2 := by
  have hk : k ≠ k2 := fun hh => h hh.symm
  induction l with
  | nil => simp [ainsert, alookup_cons, alookup_nil, hk]
  | cons p l ih =>
    rw [ainsert]
    by_cases hp : p.1 = k
    · have hp2 : p.1 ≠ k2 := hp ▸ hk
      rw [if_pos hp, alookup_cons, alookup_cons, if_neg hk, if_neg hp2]
    · rw [if_neg hp, alookup_cons, alookup_cons]
      by_cases hpk2 : p.1 = k2 <;> simp [hpk2, ih]

theorem keys_ainsert {β : Type} (l : List (String × β)) (k : String)
    (v : β) :
    (ainsert l k v).map Prod.fst =
      if k ∈ l.map Prod.fst then l.map Prod.fst else l.map Prod.fst ++ [k] := by
  induction l with
  | nil => simp [ainsert]
  | cons p l ih =>
    rw [ainsert]
    by_cases h : p.1 = k
    · simp [h]
    · simp only [h, if_false, List.map_cons, ih]
      by_cases hm : k ∈ l.map Prod.fst <;> simp [hm, Ne.symm h, h]

theorem mem_keys_ainsert {β : Type} (l : List (String × β))
    (k k2 : String) (v : β) :
    k2 ∈ (ainsert l k v).map Prod.fst ↔ k2 ∈ l.map Prod.fst ∨ k2 = k := by
  rw [keys_ainsert]
  by_cases hm : k ∈ l.map Prod.fst
  · simp only [hm, if_true]
    constructor
    · exact fun h => Or.inl h
    · rintro (h | rfl)
      · exact h
      · exact hm
  · simp [hm]

theorem nodupKeys_ainsert {β : Type} (l : List (String × β))
    (k : String) (v : β) (h : NodupKeys l) : NodupKeys (ainsert l k v) := by
  unfold NodupKeys at *
  rw [keys_ainsert]
  by_cases hm : k ∈ l.map Prod.fst
  · simpa [hm]
  · simpa [hm, List.nodup_append] using h

theorem mem_ainsert {β : Type} (l : List (String × β)) (k : String)
    (v : β) (p : String × β) (hp : p ∈ ainsert l k v) :
    p = (k, v) ∨ p ∈ l := by
  induction l with
  | nil => simpa [ainsert] using hp
  | cons q l ih =>
    rw [ainsert] at hp
    by_cases h : q.1 = k
    · simp only [h, if_true, List.mem_cons] at hp
      rcases hp with h1 | h1
      · exact Or.inl h1
      · exact Or.inr (List.mem_cons_of_mem q h1)
    · simp only [h, if_false, List.mem_cons] at hp
      rcases hp with h1 | h1
      · exact Or.inr (h1 ▸ List.mem_cons_self q l)
      · rcases ih h1 with h2 | h2
        · exact Or.inl h2
        · exact Or.inr (List.mem_cons_of_mem q h2)

/-- The value of the last entry with a given key, i.e. the survivor when
a list of entries is inserted left to right into a map. -/
def lastVal {β : Type} : List (String × β) → String → Option β
  | [], _ => none
  | p :: ps, k =>
    match lastVal ps k with
    | some v => some v
    | none => if p.1 = k then some p.2 else none

theorem lastVal_isSome_iff {β : Type} (ps : List (String × β)) (k : String) :
    (lastVal ps k).isSome = true ↔ k ∈ ps.map Prod.fst := by
  induction ps with
  | nil => simp [lastVal]
  | cons p ps ih =>
    rw [lastVal, List.map_cons, List.mem_cons]
    cases h : lastVal ps k with
    | some v =>
      rw [h] at ih
      simp only [Option.isSome_some, true_iff]
      exact Or.inr (ih.mp rfl)
    | none =>
      rw [h] at ih
      by_cases hp : p.1 = k
      · rw [if_pos hp]
        simp only [Option.isSome_some, true_iff]
        exact Or.inl hp.symm
      · rw [if_neg hp]
        simp only [Option.isSome_none, Bool.false_eq_true, false_iff]
        intro hc
        rcases hc with hc | hc
        · exact hp hc.symm
        · have := ih.mpr hc
          simp at this

/-- Folding `ainsert` over a list of entries: a key ends bound to the
last entry carrying it, or keeps its binding from the start map. -/
theorem alookup_foldl_ainsert {β : Type} (ps : List (String × β))
    (acc : List (String × β)) (k : String) :
    alookup (ps.foldl (fun a p => ainsert a p.1 p.2) acc) k =
      match lastVal ps k with
      | some v => some v
      | none => alookup acc k := by
  induction ps generalizing acc with
  | nil => simp [lastVal]
  | cons p ps ih =>
    rw [List.foldl_cons, ih, lastVal]
    cases h : lastVal ps k with
    | some v => simp
    | none =>
      by_cases hp : p.1 = k
      · simp [hp, alookup_ainsert_self]
      · simp [alookup_ainsert_ne _ _ _ _ (Ne.symm hp), hp]

theorem nodupKeys_foldl_ainsert {β : Type} (ps : List (String × β))
    (acc : List (String × β)) (h : NodupKeys acc) :
    NodupKeys (ps.foldl (fun a p => ainsert a p.1 p.2) acc) := by
  induction ps generalizing acc with
  | nil => exact h
  | cons p ps ih => exact ih _ (nodupKeys_ainsert _ _ _ h)

theorem mem_keys_foldl_ainsert {β : Type} (ps : List (String × β))
    (acc : List (String × β)) (k : String) :
    k ∈ (ps.foldl (fun a p => ainsert a p.1 p.2) acc).map Prod.fst ↔
      k ∈ acc.map Prod.fst ∨ k ∈ ps.map Prod.fst := by
  rw [← alookup_isSome_iff, alookup_foldl_ainsert, ← alookup_isSome_iff,
    ← lastVal_isSome_iff]
  cases lastVal ps k <;> simp

theorem mem_foldl_ainsert {β : Type} (ps : List (String × β))
    (acc : List (String × β)) (q : String × β)
    (hq : q ∈ ps.foldl (fun a p => ainsert a p.1 p.2) acc) :
    q ∈ acc ∨ q.2 ∈ ps.map Prod.snd := by
  induction ps generalizing acc with
  | nil => exact Or.inl hq
  | cons p ps ih =>
    rw [List.foldl_cons] at hq
    rcases ih _ hq with h | h
    · rcases mem_ainsert _ _ _ _ h with h1 | h1
      · right; rw [h1]; simp
      · exact Or.inl h1
    · right; exact List.mem_cons_of_mem _ h

/-- Inserting entries with fresh, pairwise distinct keys just appends
them: this is the shape every rebuild-the-whole-map loop produces. -/
theorem foldl_ainsert_of_disjoint {β : Type} (ps : List (String × β))
    (acc : List (String × β)) (hd : ∀ k ∈ ps.map Prod.fst, k ∉ acc.map Prod.fst)
    (hn : NodupKeys ps) :
    ps.foldl (fun a p => ainsert a p.1 p.2) acc = acc ++ ps := by
  induction ps generalizing acc with
  | nil => simp
  | cons p ps ih =>
    rw [List.foldl_cons]
    have hp : p.1 ∉ acc.map Prod.fst := hd p.1 (by simp)
    have hins : ainsert acc p.1 p.2 = acc ++ [p] := by
      clear ih hd hn
      induction acc with
      | nil => rfl
      | cons q acc ihq =>
        rw [List.map_cons, List.mem_cons] at hp
        push_neg at hp
        rw [ainsert, if_neg (Ne.symm hp.1), List.cons_append, ihq hp.2]
    rw [hins, ih]
    · simp
    · intro k hk
      rw [List.map_append, List.mem_append]
      push_neg
      constructor
      · exact hd k (List.mem_cons_of_mem _ hk)
      · unfold NodupKeys at hn
        rw [List.map_cons, List.nodup_cons] at hn
        intro hc
        simp only [List.map_cons, List.map_nil, List.mem_singleton] at hc
        exact hn.1 (hc ▸ hk)
    · unfold NodupKeys at hn
      rw [List.map_cons, List.nodup_cons] at hn
      exact hn.2

/-! ### Characterization of the column index -/

/-- The ascending list of positions of a value in a cell list. -/
def posList (cells : List String) (v : String) : List Nat :=
  (List.range cells.length).filter (fun i => cells.getD i "" == v)

theorem posList_nil (v : String) : posList [] v = [] := rfl

theorem posList_cons (c : String) (cs : List String) (v : String) :
    posList (c :: cs) v =
      (if c = v then [0] else []) ++ (posList cs v).map (fun i => i + 1) := by
  unfold posList
  rw [List.length_cons, List.range_succ_eq_map, List.filter_cons,
    List.filter_map]
  have hpred : ((fun i => (c :: cs).getD i "" == v) ∘ Nat.succ) =
      (fun i => cs.getD i "" == v) := by
    funext i
    simp [Function.comp, List.getD_cons_succ]
  have hmap : ∀ l : List Nat, l.map Nat.succ = l.map (fun i => i + 1) := by
    intro l
    apply List.map_congr_left
    intro i _
    rfl
  rw [hpred, hmap]
  by_cases h : c = v
  · simp [List.getD_cons_zero, h]
  · have hb : (c == v) = false := by simp [h]
    simp [List.getD_cons_zero, hb, h]

theorem mem_posList (cells : List String) (v : String) (i : Nat) :
    i ∈ posList cells v ↔ i < cells.length ∧ cells.getD i "" = v := by
  unfold posList
  rw [List.mem_filter, List.mem_range]
  simp

theorem posList_pairwise (cells : List String) (v : String) :
    (posList cells v).Pairwise (· < ·) :=
  (List.pairwise_lt_range _).sublist (List.filter_sublist _)

theorem posList_nodup (cells : List String) (v : String) :
    (posList cells v).Nodup :=
  (posList_pairwise cells v).imp Nat.ne_of_lt

theorem posList_length (cells : List String) (v : String) :
    (posList cells v).length = cells.count v := by
  induction cells with
  | nil => rfl
  | cons c cs ih =>
    rw [posList_cons, List.length_append, List.length_map, ih,
      List.count_cons]
    by_cases h : c = v
    · simp only [h, if_pos rfl, List.length_cons, List.length_nil,
        beq_self_eq_true, if_true]
      omega
    · have hb : (c == v) = false := by simp [h]
      have hb2 : (v == c) = false := by
        rw [beq_eq_false_iff_ne]
        intro hc
        exact h hc.symm
      simp only [h, if_false, List.length_nil, hb, hb2, Bool.false_eq_true]
      omega

theorem posList_eq_nil_iff (cells : List String) (v : String) :
    posList cells v = [] ↔ v ∉ cells := by
  induction cells with
  | nil => simp [posList_nil]
  | cons c cs ih =>
    rw [posList_cons, List.mem_cons, List.append_eq_nil, List.map_eq_nil_iff,
      ih]
    by_cases h : c = v
    · simp [h]
    · simp only [h, if_false]
      constructor
      · rintro ⟨-, hcs⟩ (hvc | hvc)
        · exact h hvc.symm
        · exact hcs hvc
      · intro hv
        exact ⟨by trivial, fun hvc => hv (Or.inr hvc)⟩

theorem headD_le_of_pairwise_lt (l : List Nat) (h : l.Pairwise (· < ·))
    (j : Nat) (hj : j ∈ l) : l.headD 0 ≤ j := by
  cases l with
  | nil => simp at hj
  | cons a l =>
    rw [List.headD_cons]
    rcases List.mem_cons.mp hj with rfl | hj
    · exact Nat.le_refl j
    · exact Nat.le_of_lt ((List.pairwise_cons.mp h).1 j hj)

theorem alookup_idxInsert (m : ColumnIndex) (v : String) (i : Nat)
    (w : String) :
    alookup (idxInsert m v i) w =
      if w = v then some ((alookup m v).getD [] ++ [i]) else alookup m w := by
  unfold idxInsert
  cases hm : alookup m v with
  | some l =>
    by_cases h : w = v
    · rw [if_pos h, h, alookup_ainsert_self]
      rfl
    · rw [if_neg h, alookup_ainsert_ne _ _ _ _ h]
  | none =>
    rw [alookup_append]
    by_cases h : w = v
    · rw [if_pos h, h, hm]
      simp [alookup_cons, hm]
    · rw [if_neg h]
      cases hw : alookup m w
      · simp only [alookup_cons, alookup_nil]
        rw [if_neg (fun hc => h hc.symm)]
      · simp

/-- The positions recorded for `w` by a prefix of the scan loop. -/
def recPos (ps : List (Nat × String)) (w : String) : List Nat :=
  ps.filterMap (fun pv => if pv.2 = w then some pv.1 else none)

theorem alookup_foldl_idxInsert (ps : List (Nat × String)) (m : ColumnIndex)
    (w : String) :
    alookup (ps.foldl (fun m pv => idxInsert m pv.2 pv.1) m) w =
      match alookup m w with
      | some l0 => some (l0 ++ recPos ps w)
      | none => if recPos ps w = [] then none else some (recPos ps w) := by
  induction ps generalizing m with
  | nil =>
    cases hm : alookup m w <;> simp [recPos, hm]
  | cons p ps ih =>
    rw [List.foldl_cons, ih]
    have hrec : recPos (p :: ps) w =
        (if p.2 = w then [p.1] else []) ++ recPos ps w := by
      unfold recPos
      rw [List.filterMap_cons]
      by_cases h : p.2 = w <;> simp [h]
    rw [alookup_idxInsert]
    by_cases h : w = p.2
    · rw [if_pos h, hrec, if_pos h.symm, ← h]
      cases hm : alookup m w
      · simp
      · simp
    · have hr2 : recPos (p :: ps) w = recPos ps w := by
        rw [hrec, if_neg (fun hc => h hc.symm), List.nil_append]
      rw [if_neg h, hr2]

theorem recPos_enumFrom (cells : List String) (v : String) (n : Nat) :
    recPos (List.enumFrom n cells) v = (posList cells v).map (fun i => i + n) := by
  induction cells generalizing n with
  | nil => rfl
  | cons c cs ih =>
    show recPos ((n, c) :: List.enumFrom (n + 1) cs) v = _
    unfold recPos at *
    rw [List.filterMap_cons, posList_cons, List.map_append, List.map_map]
    have harith : ((fun i => i + n) ∘ fun i => i + 1) =
        (fun i => i + (n + 1)) := by
      funext i
      simp [Function.comp]
      omega
    rw [harith, ← ih]
    by_cases h : c = v
    · simp [h]
    · simp [h]

theorem recPos_enum (cells : List String) (v : String) :
    recPos cells.enum v = posList cells v := by
  have := recPos_enumFrom cells v 0
  simpa using this

theorem alookup_buildIndex (cells : List String) (v : String) :
    alookup (buildIndex cells) v =
      if v ∈ cells then some (posList cells v) else none := by
  unfold buildIndex
  rw [alookup_foldl_idxInsert, alookup_nil, recPos_enum]
  by_cases h : v ∈ cells
  · have : posList cells v ≠ [] := by
      rw [Ne, posList_eq_nil_iff]
      exact fun hc => hc h
    simp [h, this]
  · have : posList cells v = [] := (posList_eq_nil_iff cells v).mpr h
    simp [h, this]

/-! ### The column cache invariant -/

/-- A column's cache is well formed when it is either empty or holds the
index of the column's own cells — the invariant every column of the
source maintains (columns are created cache-free and the cells never
change afterwards). -/
def Column.IdxWF (c : Column) : Prop :=
  c.maybe_index = none ∨ c.maybe_index = some (buildIndex c.cells)

instance (c : Column) : Decidable c.IdxWF := by
  unfold Column.IdxWF
  infer_instance

theorem Column.new_IdxWF (cells : List String) : (Column.new cells).IdxWF :=
  Or.inl rfl

theorem get_index_fst (c : Column) (h : c.IdxWF) :
    c.get_index.1 = buildIndex c.cells := by
  unfold Column.get_index
  rcases h with h | h <;> rw [h]

theorem get_index_cells (c : Column) : c.get_index.2.cells = c.cells := by
  cases h : c.maybe_index <;> simp [Column.get_index, h]

theorem get_index_cached (c : Column) :
    c.get_index.2.maybe_index = some c.get_index.1 := by
  cases h : c.maybe_index <;> simp [Column.get_index, h]

theorem get_index_IdxWF (c : Column) (h : c.IdxWF) : c.get_index.2.IdxWF := by
  unfold Column.IdxWF
  rw [get_index_cells, get_index_cached, get_index_fst c h]
  right
  rfl

theorem get_index_again (c : Column) :
    c.get_index.2.get_index = (c.get_index.1, c.get_index.2) := by
  cases h : c.maybe_index <;> simp [Column.get_index, h]

theorem keys_idxInsert (m : ColumnIndex) (v : String) (i : Nat) :
    (idxInsert m v i).map Prod.fst =
      if v ∈ m.map Prod.fst then m.map Prod.fst else m.map Prod.fst ++ [v] := by
  unfold idxInsert
  cases hm : alookup m v with
  | some l =>
    have hv : v ∈ m.map Prod.fst := by
      rw [← alookup_isSome_iff, hm]
      rfl
    rw [keys_ainsert, if_pos hv]
  | none =>
    have hv : v ∉ m.map Prod.fst := (alookup_eq_none_iff m v).mp hm
    rw [if_neg hv, List.map_append]
    rfl

theorem nodupKeys_idxInsert (m : ColumnIndex) (v : String) (i : Nat)
    (h : NodupKeys m) : NodupKeys (idxInsert m v i) := by
  unfold NodupKeys at *
  rw [keys_idxInsert]
  by_cases hv : v ∈ m.map Prod.fst
  · rwa [if_pos hv]
  · rw [if_neg hv, List.nodup_append]
    refine ⟨h, List.nodup_singleton v, ?_⟩
    intro a ha hc
    rw [List.mem_singleton] at hc
    exact hv (hc ▸ ha)

theorem nodupKeys_buildIndex (cells : List String) :
    NodupKeys (buildIndex cells) := by
  unfold buildIndex
  generalize cells.enum = ps
  have h : ∀ (m : ColumnIndex), NodupKeys m →
      NodupKeys (ps.foldl (fun m pv => idxInsert m pv.2 pv.1) m) := by
    induction ps with
    | nil => exact fun m hm => hm
    | cons p ps ih =>
      intro m hm
      exact ih _ (nodupKeys_idxInsert _ _ _ hm)
  exact h [] (by constructor)

/-- C6.  `get_index` returns a map keyed exactly by the distinct cell
values, mapping each value to the strictly ascending list of exactly the
positions holding it; the call leaves `cells` unchanged, and a second
call on the resulting column instance returns the same contents with the
cache already populated. -/
theorem getIndex_spec (c : Column) (h : c.IdxWF) :
    NodupKeys c.get_index.1 ∧
    (∀ v, (alookup c.get_index.1 v).isSome = true ↔ v ∈ c.cells) ∧
    (∀ v l, alookup c.get_index.1 v = some l →
      l.Pairwise (· < ·) ∧
      ∀ i, i ∈ l ↔ i < c.cells.length ∧ c.cells.getD i "" = v) ∧
    c.get_index.2.cells = c.cells ∧
    c.get_index.2.has_index = true ∧
    c.get_index.2.get_index = (c.get_index.1, c.get_index.2) := by
  rw [get_index_fst c h]
  refine ⟨nodupKeys_buildIndex c.cells, ?_, ?_, get_index_cells c, ?_, ?_⟩
  · intro v
    rw [alookup_buildIndex]
    by_cases hv : v ∈ c.cells <;> simp [hv]
  · intro v l hl
    rw [alookup_buildIndex] at hl
    by_cases hv : v ∈ c.cells
    · rw [if_pos hv, Option.some_inj] at hl
      subst hl
      exact ⟨posList_pairwise _ _, fun i => mem_posList _ _ _⟩
    · rw [if_neg hv] at hl
      exact absurd hl (by simp)
  · rw [Column.has_index, get_index_cached]
    rfl
  · rw [get_index_again, get_index_fst c h]

/-- Witness for C6 at a concrete column. -/
theorem getIndex_spec_witness :
    (alookup (Column.mk ["a", "b", "a"] none).get_index.1 "a").isSome = true :=
  (((getIndex_spec ⟨["a", "b", "a"], none⟩ (Or.inl rfl)).2.1) "a").mpr
    (by decide)

/-! ### Further association-list helpers -/

theorem lastVal_mem {β : Type} (ps : List (String × β)) (k : String) (v : β)
    (h : lastVal ps k = some v) : (k, v) ∈ ps := by
  induction ps with
  | nil => simp [lastVal] at h
  | cons p ps ih =>
    rw [lastVal] at h
    cases h0 : lastVal ps k with
    | some v0 =>
      rw [h0] at h
      exact List.mem_cons_of_mem p (ih (h0.trans h))
    | none =>
      rw [h0] at h
      by_cases hp : p.1 = k
      · rw [if_pos hp, Option.some_inj] at h
        have : p = (k, v) := by
          cases p
          simp only [Prod.mk.injEq]
          exact ⟨hp, h⟩
        rw [← this]
        exact List.mem_cons_self p ps
      · rw [if_neg hp] at h
        exact absurd h (by simp)

theorem alookup_of_mem_nodup {β : Type} (l : List (String × β))
    (h : NodupKeys l) (p : String × β) (hp : p ∈ l) :
    alookup l p.1 = some p.2 := by
  induction l with
  | nil => simp at hp
  | cons q l ih =>
    unfold NodupKeys at h
    rw [List.map_cons, List.nodup_cons] at h
    rcases List.mem_cons.mp hp with rfl | hp2
    · rw [alookup_cons, if_pos rfl]
    · have hq : q.1 ≠ p.1 := by
        intro hc
        exact h.1 (hc ▸ List.mem_map_of_mem Prod.fst hp2)
      rw [alookup_cons, if_neg hq]
      exact ih h.2 hp2

theorem length_foldl_ainsert_nil {β : Type} (ps : List (String × β)) :
    (ps.foldl (fun a p => ainsert a p.1 p.2) []).length =
      (ps.map Prod.fst).toFinset.card := by
  have hnodup : NodupKeys (ps.foldl (fun a p => ainsert a p.1 p.2) []) :=
    nodupKeys_foldl_ainsert ps [] (by constructor)
  have hmem : ∀ k, k ∈ (ps.foldl (fun a p => ainsert a p.1 p.2) []).map
      Prod.fst ↔ k ∈ ps.map Prod.fst := by
    intro k
    rw [mem_keys_foldl_ainsert]
    simp
  have hsets : ((ps.foldl (fun a p => ainsert a p.1 p.2) []).map
      Prod.fst).toFinset = (ps.map Prod.fst).toFinset := by
    apply Finset.ext
    intro a
    rw [List.mem_toFinset, List.mem_toFinset]
    exact hmem a
  calc (ps.foldl (fun a p => ainsert a p.1 p.2) []).length
      = ((ps.foldl (fun a p => ainsert a p.1 p.2) []).map Prod.fst).length :=
        (List.length_map _ _).symm
    _ = ((ps.foldl (fun a p => ainsert a p.1 p.2) []).map
          Prod.fst).toFinset.card := (List.toFinset_card_of_nodup hnodup).symm
    _ = (ps.map Prod.fst).toFinset.card := by rw [hsets]

/-! ### C7: deselect_column and the usize underflow -/

/-- C7 (code bug).  On a table with zero columns — reachable through
`select_columns([])` or an empty builder — `deselect_column` evaluates
`self.columns.len() - 1 = 0usize - 1`, an underflow (panic in debug
builds); the claim promises the subtraction never underflows.  In the
release (wrapping) semantics modelled here the Missing-Column error is
still produced. -/
theorem deselect_empty_underflows :
    (Table.mk []).columns_count < 1 ∧
    (Table.mk []).deselect_column "x" =
      .error ("colonna " ++ "x" ++ " non esiste") := by
  constructor
  · decide
  · rfl

/-! ### C4: rename_column onto an existing column -/

/-- C4 counterexample.  With the map iterated in the order
`[("a", x-column), ("b", y-column)]`, `rename_column "a" "b"` inserts
the renamed column first and the untouched `"b"` column afterwards, so
the pre-existing `"b"` data survives — not the renamed `"a"` data the
claim promises. -/
theorem rename_collision_counterexample :
    (Table.mk [("a", Column.new ["x"]), ("b", Column.new ["y"])]).rename_column
        "a" "b" = .ok (Table.mk [("b", Column.new ["y"])]) ∧
      Column.new ["y"] ≠ Column.new ["x"] := by
  constructor
  · rfl
  · decide

/-- The rename loop, restated: the accumulated map is the fold of the
renamed entries, and the flag records whether `old` was never seen. -/
theorem rename_fold_eq (l : List (String × Column)) (o n : String)
    (acc0 : List (String × Column)) (b0 : Bool) :
    l.foldl
      (fun (acc : List (String × Column) × Bool) p =>
        if o == p.1 then (ainsert acc.1 n p.2, false)
        else (ainsert acc.1 p.1 p.2, acc.2))
      (acc0, b0) =
    ((l.map (fun p => (if o = p.1 then n else p.1, p.2))).foldl
        (fun a p => ainsert a p.1 p.2) acc0,
      if o ∈ l.map Prod.fst then false else b0) := by
  induction l generalizing acc0 b0 with
  | nil => simp
  | cons p l ih =>
    rw [List.foldl_cons, List.map_cons, List.foldl_cons]
    by_cases h : o = p.1
    · have hb : (o == p.1) = true := by simp [h]
      rw [hb]
      simp only [if_true]
      rw [ih]
      have : o ∈ (p :: l).map Prod.fst := by
        rw [List.map_cons, List.mem_cons]
        exact Or.inl h
      rw [if_pos this, if_pos h]
      cases hmem : decide (o ∈ l.map Prod.fst) <;>
        simp [h, List.mem_cons, hmem]
    · have hb : (o == p.1) = false := by simp [h]
      rw [hb]
      simp only [Bool.false_eq_true, if_false]
      rw [ih, if_neg h]
      congr 1
      by_cases hmem : o ∈ l.map Prod.fst
      · have hmemc : o ∈ List.map Prod.fst (p :: l) := by
          rw [List.map_cons]
          exact List.mem_cons.mpr (Or.inr hmem)
        rw [if_pos hmem, if_pos hmemc]
      · have hmemc : o ∉ List.map Prod.fst (p :: l) := by
          rw [List.map_cons, List.mem_cons]
          push_neg
          exact ⟨h, hmem⟩
        rw [if_neg hmem, if_neg hmemc]

/-- C4 (amended).  Renaming `old` onto a distinct existing column `new`
succeeds and the result has one fewer column; the column named `new`
holds either `old`'s data or the pre-existing `new` data, whichever of
the two map entries is inserted last in the map's unspecified iteration
order. -/
theorem rename_collision_amended (t : Table) (o n : String)
    (hn : NodupKeys t.columns) (co cn : Column)
    (ho : alookup t.columns o = some co)
    (hc : alookup t.columns n = some cn) (hne : o ≠ n) :
    ∃ t2, t.rename_column o n = .ok t2 ∧
      t2.columns_count + 1 = t.columns_count ∧
      ∃ c, alookup t2.columns n = some c ∧ (c = co ∨ c = cn) := by
  have homem : o ∈ t.columns.map Prod.fst := by
    rw [← alookup_isSome_iff, ho]
    rfl
  have hnmem : n ∈ t.columns.map Prod.fst := by
    rw [← alookup_isSome_iff, hc]
    rfl
  unfold Table.rename_column
  rw [rename_fold_eq, if_pos homem]
  refine ⟨_, rfl, ?_, ?_⟩
  · -- column count drops by one
    show (_ : List (String × Column)).length + 1 = _
    rw [length_foldl_ainsert_nil, List.map_map]
    have hkeys : (t.columns.map
        (Prod.fst ∘ fun p => (if o = p.1 then n else p.1, p.2))) =
        (t.columns.map Prod.fst).map (fun k => if o = k then n else k) := by
      rw [List.map_map]
      rfl
    have htf : ((t.columns.map Prod.fst).map
        (fun k => if o = k then n else k)).toFinset =
        (t.columns.map Prod.fst).toFinset.image
          (fun k => if o = k then n else k) := by
      apply Finset.ext
      intro a
      simp [List.mem_toFinset, Finset.mem_image]
    rw [hkeys, htf]
    have himg : (t.columns.map Prod.fst).toFinset.image
        (fun k => if o = k then n else k) =
        (t.columns.map Prod.fst).toFinset.erase o := by
      apply Finset.ext
      intro a
      rw [Finset.mem_image, Finset.mem_erase]
      constructor
      · rintro ⟨b, hb, rfl⟩
        by_cases hbo : o = b
        · rw [if_pos hbo]
          refine ⟨fun hcon => hne hcon.symm, ?_⟩
          rw [List.mem_toFinset]
          exact hnmem
        · rw [if_neg hbo]
          exact ⟨fun hcon => hbo hcon.symm, hb⟩
      · rintro ⟨hao, ha⟩
        refine ⟨a, ha, ?_⟩
        rw [if_neg (fun hcon => hao hcon.symm)]
    rw [himg, Finset.card_erase_add_one]
    · show (t.columns.map Prod.fst).toFinset.card = t.columns.length
      rw [List.toFinset_card_of_nodup hn, List.length_map]
    · rw [List.mem_toFinset]
      exact homem
  · -- the surviving data under the new name
    rw [alookup_foldl_ainsert]
    have hnmem2 : n ∈ (t.columns.map
        (fun p => (if o = p.1 then n else p.1, p.2))).map Prod.fst := by
      obtain ⟨p, hp, hp1⟩ := List.mem_map.mp hnmem
      apply List.mem_map.mpr
      refine ⟨(if o = p.1 then n else p.1, p.2), List.mem_map_of_mem _ hp, ?_⟩
      show (if o = p.1 then n else p.1) = n
      by_cases hop : o = p.1
      · rw [if_pos hop]
      · rw [if_neg hop]
        exact hp1
    cases hl : lastVal (t.columns.map
        (fun p => (if o = p.1 then n else p.1, p.2))) n with
    | none =>
      rw [← lastVal_isSome_iff, hl] at hnmem2
      exact absurd hnmem2 (by simp)
    | some c =>
      refine ⟨c, by simp [alookup_nil], ?_⟩
      have hmemc := lastVal_mem _ _ _ hl
      obtain ⟨p, hp, hpe⟩ := List.mem_map.mp hmemc
      by_cases hop : o = p.1
      · left
        have hval : p.2 = c := congrArg Prod.snd hpe
        have : alookup t.columns o = some p.2 := by
          rw [hop]
          exact alookup_of_mem_nodup t.columns hn p hp
        rw [this, Option.some_inj] at ho
        rw [← ho, hval]
      · right
        have hkey : p.1 = n := by
          have := congrArg Prod.fst hpe
          simpa [hop] using this
        have hval : p.2 = c := congrArg Prod.snd hpe
        have : alookup t.columns n = some p.2 := by
          rw [← hkey]
          exact alookup_of_mem_nodup t.columns hn p hp
        rw [this, Option.some_inj] at hc
        rw [← hc, hval]

/-- Witness for the amended C4 at concrete tables, covering both
iteration orders of the colliding pair. -/
theorem rename_collision_amended_witness :
    ∃ t2, (Table.mk [("a", Column.new ["x"]),
        ("b", Column.new ["y"])]).rename_column "a" "b" = .ok t2 ∧
      t2.columns_count + 1 =
        (Table.mk [("a", Column.new ["x"]),
          ("b", Column.new ["y"])]).columns_count ∧
      ∃ c, alookup t2.columns "b" = some c ∧
        (c = Column.new ["x"] ∨ c = Column.new ["y"]) :=
  rename_collision_amended _ "a" "b" (by decide) _ _ (by decide) (by decide)
    (by decide)

/-! ### C10: concatenate ignores columns missing from self -/

/-- C10.  When the second table has every column of the first,
`concatenate` succeeds and the result carries exactly the first table's
column names: columns only in the second table are ignored silently. -/
theorem concatenate_keys (t other : Table)
    (h : ∀ k ∈ t.columns.map Prod.fst, k ∈ other.columns.map Prod.fst) :
    ∃ t2, t.concatenate other = .ok t2 ∧
      t2.columns.map Prod.fst = t.columns.map Prod.fst := by
  unfold Table.concatenate
  have hgen : ∀ l : List (String × Column),
      (∀ k ∈ l.map Prod.fst, k ∈ other.columns.map Prod.fst) →
      ∃ cols, (l.mapM (fun p => do
        let msg := "la seconda table in concatenazione non ha la colonna " ++
          p.1
        let other_col ←
          match alookup other.columns p.1 with
          | some c => Except.ok c
          | none => Except.error msg
        pure (p.1, Column.new (p.2.cells ++ other_col.cells))) :
          Except String (List (String × Column))) = .ok cols ∧
        cols.map Prod.fst = l.map Prod.fst := by
    intro l hl
    induction l with
    | nil => exact ⟨[], rfl, rfl⟩
    | cons p l ih =>
      have hp : p.1 ∈ other.columns.map Prod.fst :=
        hl p.1 (by rw [List.map_cons]; exact List.mem_cons_self _ _)
      obtain ⟨c, hc⟩ := Option.isSome_iff_exists.mp
        ((alookup_isSome_iff other.columns p.1).mpr hp)
      obtain ⟨cols, hcols, hkeys⟩ := ih (fun k hk =>
        hl k (by rw [List.map_cons]; exact List.mem_cons_of_mem _ hk))
      refine ⟨(p.1, Column.new (p.2.cells ++ c.cells)) :: cols, ?_, ?_⟩
      · rw [List.mapM_cons, hcols]
        simp only [hc]
        rfl
      · rw [List.map_cons, List.map_cons, hkeys]
  obtain ⟨cols, hcols, hkeys⟩ := hgen t.columns h
  refine ⟨⟨cols⟩, ?_, hkeys⟩
  rw [hcols]
  rfl

/-- Witness for C10: the second table's extra column `b` is ignored. -/
theorem concatenate_keys_witness :
    ∃ t2, (Table.mk [("a", Column.new ["1"])]).concatenate
        (Table.mk [("a", Column.new ["2"]), ("b", Column.new ["z"])]) =
        .ok t2 ∧
      t2.columns.map Prod.fst =
        (Table.mk [("a", Column.new ["1"])]).columns.map Prod.fst :=
  concatenate_keys _ _ (by decide)

/-! ### Join machinery -/

theorem probePairs_eq (idx : ColumnIndex) (cells : List String) :
    probePairs idx cells =
      (cells.enum.flatMap (fun pv => (alookup idx pv.2).getD []),
        cells.enum.flatMap
          (fun pv => List.replicate ((alookup idx pv.2).getD []).length
            pv.1)) := by
  unfold probePairs
  generalize cells.enum = ps
  have hgen : ∀ (a b : List Nat),
      ps.foldl
        (fun acc pv =>
          match alookup idx pv.2 with
          | some l => (acc.1 ++ l, acc.2 ++ List.replicate l.length pv.1)
          | none => acc) (a, b) =
      (a ++ ps.flatMap (fun pv => (alookup idx pv.2).getD []),
        b ++ ps.flatMap
          (fun pv => List.replicate ((alookup idx pv.2).getD []).length
            pv.1)) := by
    induction ps with
    | nil => simp
    | cons p ps ih =>
      intro a b
      rw [List.foldl_cons, List.flatMap_cons, List.flatMap_cons]
      cases hp : alookup idx p.2 with
      | none => simp [ih, hp]
      | some l => simp [ih, hp, List.append_assoc]
  simpa using hgen [] []

theorem probePairs_length (idx : ColumnIndex) (cells : List String) :
    (probePairs idx cells).1.length = (probePairs idx cells).2.length := by
  rw [probePairs_eq]
  show (List.flatMap _ _).length = (List.flatMap _ _).length
  rw [List.length_flatMap, List.length_flatMap]
  congr 1
  apply List.map_congr_left
  intro pv _
  simp [Function.comp]

theorem remap_keys (t : Table) (ps : List Nat) :
    (t.remap ps).columns.map Prod.fst = t.columns.map Prod.fst := by
  unfold Table.remap
  rw [List.map_map]
  rfl

theorem remap_col_length (t : Table) (ps : List Nat) (p : String × Column)
    (hp : p ∈ (t.remap ps).columns) : p.2.cells.length = ps.length := by
  unfold Table.remap at hp
  obtain ⟨q, _, rfl⟩ := List.mem_map.mp hp
  show (ps.map _).length = ps.length
  rw [List.length_map]

theorem alookup_remap (t : Table) (ps : List Nat) (k : String) :
    alookup (t.remap ps).columns k =
      (alookup t.columns k).map (fun c => c.remap ps) := by
  unfold Table.remap
  induction t.columns with
  | nil => rfl
  | cons p l ih =>
    rw [List.map_cons, alookup_cons, alookup_cons]
    by_cases h : p.1 = k
    · simp [h]
    · simp only [h, if_false]
      exact ih

theorem lastVal_eq_alookup_of_nodup {β : Type} (l : List (String × β))
    (h : NodupKeys l) (k : String) : lastVal l k = alookup l k := by
  induction l with
  | nil => rfl
  | cons p l ih =>
    unfold NodupKeys at h
    rw [List.map_cons, List.nodup_cons] at h
    rw [lastVal, alookup_cons, ih h.2]
    by_cases hp : p.1 = k
    · have : alookup l k = none := by
        rw [alookup_eq_none_iff]
        exact fun hc => h.1 (hp ▸ hc)
      rw [this, if_pos hp]
    · rw [if_neg hp, if_neg hp]
      cases alookup l k <;> rfl

theorem alookup_extend (t1 t2 : Table) (h2 : NodupKeys t2.columns)
    (k : String) :
    alookup (t1.extend t2).columns k =
      match alookup t2.columns k with
      | some v => some v
      | none => alookup t1.columns k := by
  unfold Table.extend
  show alookup (t2.columns.foldl (fun acc p => ainsert acc p.1 p.2)
    t1.columns) k = _
  rw [alookup_foldl_ainsert, lastVal_eq_alookup_of_nodup t2.columns h2]
  cases alookup t2.columns k <;> rfl

theorem extend_mem (t1 t2 : Table) (q : String × Column)
    (hq : q ∈ (t1.extend t2).columns) :
    q ∈ t1.columns ∨ q.2 ∈ t2.columns.map Prod.snd := by
  unfold Table.extend at hq
  exact mem_foldl_ainsert t2.columns t1.columns q hq

theorem extend_keys_sup (t1 t2 : Table) (k : String)
    (hk : k ∈ t1.columns.map Prod.fst) :
    k ∈ (t1.extend t2).columns.map Prod.fst := by
  unfold Table.extend
  rw [mem_keys_foldl_ainsert]
  exact Or.inl hk

/-- A nonempty table whose columns all have length `L` has `rows_count`
`L`. -/
theorem rows_count_of_uniform (t : Table) (L : Nat) (hne : t.columns ≠ [])
    (h : ∀ p ∈ t.columns, p.2.cells.length = L) : t.rows_count = L := by
  unfold Table.rows_count
  cases hc : t.columns with
  | nil => exact absurd hc hne
  | cons p l =>
    have := h p (by rw [hc]; exact List.mem_cons_self p l)
    simp [Column.len, this]

theorem joinIndexed_uniform (A B : Table) (cA cB : Column)
    (p : String × Column) (hp : p ∈ (joinIndexed A B cA cB).columns) :
    p.2.cells.length = (probePairs cA.get_index.1 cB.cells).1.length := by
  unfold joinIndexed at hp
  rcases extend_mem _ _ _ hp with h | h
  · exact remap_col_length A _ p h
  · obtain ⟨q, hq, hqe⟩ := List.mem_map.mp h
    rw [← hqe]
    rw [probePairs_length]
    exact remap_col_length B _ q hq

theorem joinIndexed_nonempty (A B : Table) (cA cB : Column)
    (hA : A.columns ≠ []) : (joinIndexed A B cA cB).columns ≠ [] := by
  unfold joinIndexed
  intro hc
  cases hA2 : A.columns with
  | nil => exact hA hA2
  | cons p l =>
    have : p.1 ∈ ((A.remap (probePairs cA.get_index.1 cB.cells).1).extend
        (B.remap (probePairs cA.get_index.1 cB.cells).2)).columns.map
        Prod.fst := by
      apply extend_keys_sup
      rw [remap_keys, hA2, List.map_cons]
      exact List.mem_cons_self _ _
    rw [hc] at this
    simp at this

theorem rows_count_joinIndexed (A B : Table) (cA cB : Column)
    (hA : A.columns ≠ []) :
    (joinIndexed A B cA cB).rows_count =
      (probePairs cA.get_index.1 cB.cells).1.length :=
  rows_count_of_uniform _ _ (joinIndexed_nonempty A B cA cB hA)
    (joinIndexed_uniform A B cA cB)

theorem joinCond_swap (cs co : Column) (h : joinCond cs co = false) :
    joinCond co cs = true := by
  unfold joinCond Column.has_index Column.len at *
  cases h1 : cs.maybe_index.isSome <;> cases h2 : co.maybe_index.isSome <;>
    simp_all <;> omega

theorem join_on_columns_eq (A : Table) (kA : String) (B : Table)
    (kB : String) (cA cB : Column)
    (hA : alookup A.columns kA = some cA)
    (hB : alookup B.columns kB = some cB) :
    A.join_on_columns kA B kB =
      .ok (if joinCond cA cB then joinIndexed A B cA cB
           else joinIndexed B A cB cA) := by
  have hA2 : A.column kA = .ok cA := by rw [Table.column, hA]
  have hB2 : B.column kB = .ok cB := by rw [Table.column, hB]
  unfold Table.join_on_columns join_go
  rw [hA2, hB2]
  by_cases hcond : joinCond cA cB = true
  · show (if joinCond cA cB = true then
        (pure (joinIndexed A B cA cB) : Except String Table)
      else join_go 1 B kB A kA) =
      Except.ok (if joinCond cA cB = true then joinIndexed A B cA cB
        else joinIndexed B A cB cA)
    rw [if_pos hcond, if_pos hcond]
    rfl
  · have hfalse : joinCond cA cB = false := by
      cases hc : joinCond cA cB
      · rfl
      · exact absurd hc hcond
    have hswap := joinCond_swap cA cB hfalse
    show (if joinCond cA cB = true then
        (pure (joinIndexed A B cA cB) : Except String Table)
      else join_go 1 B kB A kA) =
      Except.ok (if joinCond cA cB = true then joinIndexed A B cA cB
        else joinIndexed B A cB cA)
    rw [if_neg hcond, if_neg hcond]
    show (do
      let column_self ← B.column kB
      let column_other ← A.column kA
      if joinCond column_self column_other = true then
        pure (joinIndexed B A column_self column_other)
      else join_go 0 A kA B kB) = Except.ok (joinIndexed B A cB cA)
    rw [hB2, hA2]
    show (if joinCond cB cA = true then
        (pure (joinIndexed B A cB cA) : Except String Table)
      else join_go 0 A kA B kB) = _
    rw [if_pos hswap]
    rfl

/-! ### C1: join row count -/

theorem flatMap_enum_length (f : String → List Nat) (cells : List String) :
    (cells.enum.flatMap (fun pv => f pv.2)).length =
      (cells.map (fun v => (f v).length)).sum := by
  rw [List.length_flatMap]
  have h2 : cells.enum.map (List.length ∘ fun pv => f pv.2) =
      (cells.enum.map Prod.snd).map (fun v => (f v).length) := by
    rw [List.map_map]
    rfl
  rw [h2, List.enum_map_snd]

theorem bucket_length (cellsA : List String) (v : String) :
    ((alookup (buildIndex cellsA) v).getD []).length = cellsA.count v := by
  rw [alookup_buildIndex]
  by_cases h : v ∈ cellsA
  · rw [if_pos h]
    exact posList_length cellsA v
  · rw [if_neg h]
    rw [List.count_eq_zero_of_not_mem h]
    rfl

theorem probe_len (cA cB : Column) (hWF : cA.IdxWF) :
    (probePairs cA.get_index.1 cB.cells).1.length =
      ∑ v in cA.cells.toFinset ∩ cB.cells.toFinset,
        cA.cells.count v * cB.cells.count v := by
  rw [get_index_fst cA hWF, probePairs_eq]
  show (cB.cells.enum.flatMap _).length = _
  rw [flatMap_enum_length (fun v => (alookup (buildIndex cA.cells) v).getD [])]
  have hb : cB.cells.map
      (fun v => ((alookup (buildIndex cA.cells) v).getD []).length) =
      cB.cells.map (fun v => cA.cells.count v) := by
    apply List.map_congr_left
    intro v _
    exact bucket_length cA.cells v
  rw [hb, Finset.sum_list_map_count]
  have hsub : cA.cells.toFinset ∩ cB.cells.toFinset ⊆ cB.cells.toFinset :=
    Finset.inter_subset_right
  have hzero : ∀ v ∈ cB.cells.toFinset,
      v ∉ cA.cells.toFinset ∩ cB.cells.toFinset →
      cB.cells.count v • cA.cells.count v = 0 := by
    intro v hv hnv
    have hna : v ∉ cA.cells.toFinset :=
      fun hc => hnv (Finset.mem_inter.mpr ⟨hc, hv⟩)
    rw [List.mem_toFinset] at hna
    rw [List.count_eq_zero_of_not_mem hna, smul_zero]
  rw [← Finset.sum_subset hsub hzero]
  apply Finset.sum_congr rfl
  intro v hv
  rw [smul_eq_mul, Nat.mul_comm]

/-- C1.  The row count of `join_on_columns` is the sum, over the key
values present in both key columns, of the product of the two sides'
occurrence counts; a key on one side only contributes nothing. -/
theorem join_row_count (A : Table) (kA : String) (B : Table) (kB : String)
    (cA cB : Column)
    (hA : alookup A.columns kA = some cA)
    (hB : alookup B.columns kB = some cB)
    (hWA : cA.IdxWF) (hWB : cB.IdxWF) :
    ∃ t, A.join_on_columns kA B kB = .ok t ∧
      t.rows_count = ∑ v in cA.cells.toFinset ∩ cB.cells.toFinset,
        cA.cells.count v * cB.cells.count v := by
  rw [join_on_columns_eq A kA B kB cA cB hA hB]
  have hAne : A.columns ≠ [] := by
    intro hc
    rw [hc] at hA
    exact absurd hA (by simp [alookup_nil])
  have hBne : B.columns ≠ [] := by
    intro hc
    rw [hc] at hB
    exact absurd hB (by simp [alookup_nil])
  by_cases hcond : joinCond cA cB = true
  · rw [if_pos hcond]
    refine ⟨_, rfl, ?_⟩
    rw [rows_count_joinIndexed A B cA cB hAne, probe_len cA cB hWA]
  · rw [if_neg hcond]
    refine ⟨_, rfl, ?_⟩
    rw [rows_count_joinIndexed B A cB cA hBne, probe_len cB cA hWB,
      Finset.inter_comm]
    apply Finset.sum_congr rfl
    intro v hv
    rw [Nat.mul_comm]

/-- Witness for C1: key 1 appears twice on the left and twice on the
right, key 2 and 3 only on one side, so the join has 4 rows. -/
theorem join_row_count_witness :
    ∃ t, (Table.mk [("k", Column.new ["1", "2", "1"])]).join_on_columns "k"
        (Table.mk [("h", Column.new ["1", "1", "3"])]) "h" = .ok t ∧
      t.rows_count = ∑ v in (Column.new ["1", "2", "1"]).cells.toFinset ∩
          (Column.new ["1", "1", "3"]).cells.toFinset,
        (Column.new ["1", "2", "1"]).cells.count v *
          (Column.new ["1", "1", "3"]).cells.count v :=
  join_row_count _ "k" _ "h" _ _ (by decide) (by decide) (Or.inl rfl)
    (Or.inl rfl)

/-! ### C2: column collision — the probing side wins -/

theorem nodupKeys_remap (t : Table) (ps : List Nat) (h : NodupKeys t.columns) :
    NodupKeys (t.remap ps).columns := by
  unfold NodupKeys at *
  rw [remap_keys]
  exact h

/-- C2.  On a shared column name the join result keeps the probing
(non-indexed) side's data, remapped to the output rows: when the
heuristic `joinCond` indexes self, the colliding column holds other's
cells, and symmetrically when it indexes other. -/
theorem join_collision (A : Table) (kA : String) (B : Table) (kB : String)
    (cA cB : Column)
    (hA : alookup A.columns kA = some cA)
    (hB : alookup B.columns kB = some cB)
    (hNA : NodupKeys A.columns) (hNB : NodupKeys B.columns)
    (c : String) (ca cb : Column)
    (hca : alookup A.columns c = some ca)
    (hcb : alookup B.columns c = some cb) :
    ∃ t, A.join_on_columns kA B kB = .ok t ∧
      (joinCond cA cB = true →
        alookup t.columns c =
          some (cb.remap (probePairs cA.get_index.1 cB.cells).2)) ∧
      (joinCond cA cB = false →
        alookup t.columns c =
          some (ca.remap (probePairs cB.get_index.1 cA.cells).2)) := by
  rw [join_on_columns_eq A kA B kB cA cB hA hB]
  by_cases hcond : joinCond cA cB = true
  · rw [if_pos hcond]
    refine ⟨_, rfl, fun _ => ?_, fun hfalse => ?_⟩
    · unfold joinIndexed
      rw [alookup_extend _ _ (nodupKeys_remap B _ hNB) c, alookup_remap,
        hcb]
      rfl
    · rw [hcond] at hfalse
      exact absurd hfalse (by simp)
  · have hfalse : joinCond cA cB = false := by
      cases hc : joinCond cA cB
      · rfl
      · exact absurd hc hcond
    rw [if_neg hcond]
    refine ⟨_, rfl, fun htrue => ?_, fun _ => ?_⟩
    · rw [hfalse] at htrue
      exact absurd htrue (by simp)
    · unfold joinIndexed
      rw [alookup_extend _ _ (nodupKeys_remap A _ hNA) c, alookup_remap,
        hca]
      rfl

/-- Witness for C2: both tables carry a column `c`; the heuristic
indexes the left table, so the joined `c` holds the right (probing)
table's data remapped to the output rows. -/
theorem join_collision_witness :
    ∃ t, (Table.mk [("k", Column.new ["1"]), ("c", Column.new ["x"])]).join_on_columns
        "k" (Table.mk [("h", Column.new ["1"]), ("c", Column.new ["y"])])
        "h" = .ok t ∧
      (joinCond (Column.new ["1"]) (Column.new ["1"]) = true →
        alookup t.columns "c" =
          some ((Column.new ["y"]).remap
            (probePairs (Column.new ["1"]).get_index.1
              (Column.new ["1"]).cells).2)) ∧
      (joinCond (Column.new ["1"]) (Column.new ["1"]) = false →
        alookup t.columns "c" =
          some ((Column.new ["x"]).remap
            (probePairs (Column.new ["1"]).get_index.1
              (Column.new ["1"]).cells).2)) :=
  join_collision _ "k" _ "h" _ _ (by decide) (by decide) (by decide)
    (by decide) "c" _ _ (by decide) (by decide)

/-! ### C5: group_by_column helpers -/

theorem alookup_mem {β : Type} (l : List (String × β)) (k : String) (v : β)
    (h : alookup l k = some v) : (k, v) ∈ l := by
  induction l with
  | nil => simp [alookup_nil] at h
  | cons p l ih =>
    rw [alookup_cons] at h
    by_cases hp : p.1 = k
    · rw [if_pos hp, Option.some_inj] at h
      have : p = (k, v) := by
        cases p
        simp only [Prod.mk.injEq]
        exact ⟨hp, h⟩
      rw [← this]
      exact List.mem_cons_self p l
    · rw [if_neg hp] at h
      exact List.mem_cons_of_mem p (ih h)

theorem buildIndex_entry (cells : List String) (e : String × List Nat)
    (he : e ∈ buildIndex cells) :
    e.1 ∈ cells ∧ e.2 = posList cells e.1 := by
  have hl := alookup_of_mem_nodup (buildIndex cells)
    (nodupKeys_buildIndex cells) e he
  rw [alookup_buildIndex] at hl
  by_cases hm : e.1 ∈ cells
  · rw [if_pos hm, Option.some_inj] at hl
    exact ⟨hm, hl.symm⟩
  · rw [if_neg hm] at hl
    exact absurd hl (by simp)

theorem buildIndex_length (cells : List String) :
    (buildIndex cells).length = cells.dedup.length := by
  have hnodup := nodupKeys_buildIndex cells
  unfold NodupKeys at hnodup
  have hmem : ∀ v, v ∈ (buildIndex cells).map Prod.fst ↔ v ∈ cells := by
    intro v
    rw [← alookup_isSome_iff, alookup_buildIndex]
    by_cases hv : v ∈ cells <;> simp [hv]
  have hsets : ((buildIndex cells).map Prod.fst).toFinset =
      cells.toFinset := by
    apply Finset.ext
    intro a
    rw [List.mem_toFinset, List.mem_toFinset]
    exact hmem a
  calc (buildIndex cells).length
      = ((buildIndex cells).map Prod.fst).length :=
        (List.length_map _ _).symm
    _ = ((buildIndex cells).map Prod.fst).toFinset.card :=
        (List.toFinset_card_of_nodup hnodup).symm
    _ = cells.toFinset.card := by rw [hsets]
    _ = cells.dedup.length := List.card_toFinset cells

theorem sum_indicator_keys (m : ColumnIndex) (hN : NodupKeys m)
    (v0 : String) :
    (m.map (fun e => if e.1 = v0 then 1 else 0)).sum =
      if v0 ∈ m.map Prod.fst then 1 else 0 := by
  induction m with
  | nil => simp
  | cons e m ih =>
    unfold NodupKeys at hN
    rw [List.map_cons, List.nodup_cons] at hN
    rw [List.map_cons, List.sum_cons, ih hN.2, List.map_cons]
    by_cases he : e.1 = v0
    · have hv0 : v0 ∉ m.map Prod.fst := he ▸ hN.1
      rw [if_pos he, if_neg hv0, if_pos (List.mem_cons.mpr (Or.inl he.symm))]
    · rw [if_neg he]
      by_cases hv0 : v0 ∈ m.map Prod.fst
      · rw [if_pos hv0, if_pos (List.mem_cons.mpr (Or.inr hv0))]
      · rw [if_neg hv0, if_neg (by
          rw [List.mem_cons]
          push_neg
          exact ⟨fun hc => he hc.symm, hv0⟩)]

theorem getD_mem_of_lt (cells : List String) (i : Nat)
    (hi : i < cells.length) : cells.getD i "" ∈ cells := by
  induction cells generalizing i with
  | nil => simp at hi
  | cons c cs ih =>
    cases i with
    | zero =>
      rw [List.getD_cons_zero]
      exact List.mem_cons_self c cs
    | succ j =>
      rw [List.getD_cons_succ]
      rw [List.length_cons] at hi
      exact List.mem_cons_of_mem c (ih j (Nat.lt_of_succ_lt_succ hi))

/-- The buckets of `buildIndex` partition the positions `0..n`: their
concatenation is a permutation of `range n`, so every original row
belongs to exactly one group. -/
theorem buildIndex_partition (cells : List String) :
    ((buildIndex cells).map Prod.snd).flatten.Perm
      (List.range cells.length) := by
  rw [List.perm_iff_count]
  intro i
  rw [List.count_flatten, List.map_map]
  by_cases hi : i < cells.length
  · have hmapeq : (buildIndex cells).map (List.count i ∘ Prod.snd) =
        (buildIndex cells).map
          (fun e => if e.1 = cells.getD i "" then 1 else 0) := by
      apply List.map_congr_left
      intro e he
      obtain ⟨hmem, hpos⟩ := buildIndex_entry cells e he
      show List.count i e.2 = _
      rw [hpos]
      by_cases heq : e.1 = cells.getD i ""
      · rw [if_pos heq]
        refine List.count_eq_one_of_mem (posList_nodup cells e.1) ?_
        rw [mem_posList]
        exact ⟨hi, heq.symm⟩
      · rw [if_neg heq, List.count_eq_zero]
        intro hc
        rw [mem_posList] at hc
        exact heq hc.2.symm
    rw [hmapeq, sum_indicator_keys _ (nodupKeys_buildIndex cells)]
    have hvmem : cells.getD i "" ∈ cells := getD_mem_of_lt cells i hi
    have hkeymem : cells.getD i "" ∈ (buildIndex cells).map Prod.fst := by
      rw [← alookup_isSome_iff, alookup_buildIndex, if_pos hvmem]
      rfl
    rw [if_pos hkeymem,
      List.count_eq_one_of_mem (List.nodup_range _) (List.mem_range.mpr hi)]
  · have hmapeq : (buildIndex cells).map (List.count i ∘ Prod.snd) =
        (buildIndex cells).map (fun _ => 0) := by
      apply List.map_congr_left
      intro e he
      obtain ⟨hmem, hpos⟩ := buildIndex_entry cells e he
      show List.count i e.2 = 0
      rw [hpos, List.count_eq_zero]
      intro hc
      rw [mem_posList] at hc
      exact hi hc.1
    rw [hmapeq]
    have : List.count i (List.range cells.length) = 0 := by
      rw [List.count_eq_zero]
      intro hc
      exact hi (List.mem_range.mp hc)
    rw [this]
    simp

/-- The descriptor loop of `group_by_column`: it succeeds when every
descriptor names a column, its keys are the start keys plus the
descriptor names, and every new column has one cell per group. -/
theorem groupby_fold1 (t : Table) (gidx : ColumnIndex) (ops : List Op)
    (hops : ∀ op ∈ ops, (alookup t.columns op.column_name).isSome = true) :
    ∀ acc : List (String × Column),
      ∃ cols1, (ops.foldlM
        (fun (acc : List (String × Column)) op => do
          let col ← t.column op.column_name
          let new_cells := gidx.map
            (fun e => op.operation (e.2.map (fun p => col.cells.getD p "")))
          pure (ainsert acc op.column_name (Column.new new_cells)))
        acc : Except String (List (String × Column))) = .ok cols1 ∧
      (∀ k, k ∈ cols1.map Prod.fst ↔
        k ∈ acc.map Prod.fst ∨ k ∈ ops.map (fun op => op.column_name)) ∧
      (∀ q ∈ cols1, q ∈ acc ∨ q.2.cells.length = gidx.length) ∧
      (NodupKeys acc → NodupKeys cols1) := by
  induction ops with
  | nil =>
    intro acc
    refine ⟨acc, rfl, ?_, ?_, fun h => h⟩
    · intro k
      simp
    · intro q hq
      exact Or.inl hq
  | cons op ops ih =>
    intro acc
    have hop := hops op (List.mem_cons_self _ _)
    obtain ⟨co, hco⟩ := Option.isSome_iff_exists.mp hop
    have hcol : t.column op.column_name = .ok co := by
      rw [Table.column, hco]
    obtain ⟨cols1, hfold, hkeys, hvals, hnodup⟩ :=
      ih (fun o ho => hops o (List.mem_cons_of_mem _ ho))
        (ainsert acc op.column_name (Column.new (gidx.map
          (fun e => op.operation (e.2.map (fun p => co.cells.getD p ""))))))
    refine ⟨cols1, ?_, ?_, ?_, ?_⟩
    · rw [List.foldlM_cons, hcol]
      exact hfold
    · intro k
      rw [hkeys k, mem_keys_ainsert, List.map_cons, List.mem_cons]
      constructor
      · rintro ((h | h) | h)
        · exact Or.inl h
        · exact Or.inr (Or.inl h)
        · exact Or.inr (Or.inr h)
      · rintro (h | h | h)
        · exact Or.inl (Or.inl h)
        · exact Or.inl (Or.inr h)
        · exact Or.inr h
    · intro q hq
      rcases hvals q hq with h | h
      · rcases mem_ainsert _ _ _ _ h with h2 | h2
        · right
          rw [h2]
          show (gidx.map _).length = gidx.length
          rw [List.length_map]
        · exact Or.inl h2
      · exact Or.inr h
    · intro hacc
      exact hnodup (nodupKeys_ainsert _ _ _ hacc)

/-- The remaining-columns loop of `group_by_column`: it succeeds,
preserves lookups of already present keys, and binds every column name
not yet present to the representative-row column of its table data. -/
theorem groupby_fold2 (t : Table) (gidx : ColumnIndex) :
    ∀ (l : List (String × Column)), NodupKeys l →
      (∀ p ∈ l, alookup t.columns p.1 = some p.2) →
    ∀ acc : List (String × Column), NodupKeys acc →
      (∀ q ∈ acc, q.2.cells.length = gidx.length) →
      ∃ cols2, (l.foldlM
        (fun (acc : List (String × Column)) p =>
          if (alookup acc p.1).isSome then pure acc
          else do
            let col ← t.column p.1
            let new_cells := gidx.map
              (fun e => col.cells.getD (e.2.headD 0) "")
            pure (ainsert acc p.1 (Column.new new_cells)))
        acc : Except String (List (String × Column))) = .ok cols2 ∧
      NodupKeys cols2 ∧
      (∀ q ∈ cols2, q.2.cells.length = gidx.length) ∧
      (∀ k, k ∈ cols2.map Prod.fst ↔
        k ∈ acc.map Prod.fst ∨ k ∈ l.map Prod.fst) ∧
      (∀ k, k ∈ acc.map Prod.fst → alookup cols2 k = alookup acc k) ∧
      (∀ p ∈ l, p.1 ∉ acc.map Prod.fst →
        alookup cols2 p.1 = some (Column.new (gidx.map
          (fun e => p.2.cells.getD (e.2.headD 0) "")))) := by
  intro l
  induction l with
  | nil =>
    intro _ _ acc hNacc hlenacc
    refine ⟨acc, rfl, hNacc, hlenacc, ?_, fun k _ => rfl, fun p hp => absurd hp
      (by simp)⟩
    intro k
    simp
  | cons p l ih =>
    intro hNl hsub acc hNacc hlenacc
    have hNl2 : NodupKeys l := by
      unfold NodupKeys at hNl ⊢
      rw [List.map_cons, List.nodup_cons] at hNl
      exact hNl.2
    have hpnotl : p.1 ∉ l.map Prod.fst := by
      unfold NodupKeys at hNl
      rw [List.map_cons, List.nodup_cons] at hNl
      exact hNl.1
    have hsub2 : ∀ q ∈ l, alookup t.columns q.1 = some q.2 :=
      fun q hq => hsub q (List.mem_cons_of_mem p hq)
    by_cases hin : (alookup acc p.1).isSome = true
    · obtain ⟨cols2, hfold, hN2, hlen2, hk2, hpres2, hnew2⟩ :=
        ih hNl2 hsub2 acc hNacc hlenacc
      refine ⟨cols2, ?_, hN2, hlen2, ?_, hpres2, ?_⟩
      · rw [List.foldlM_cons, if_pos hin]
        exact hfold
      · intro k
        rw [hk2 k, List.map_cons, List.mem_cons]
        have hpacc : p.1 ∈ acc.map Prod.fst :=
          (alookup_isSome_iff acc p.1).mp hin
        constructor
        · rintro (h | h)
          · exact Or.inl h
          · exact Or.inr (Or.inr h)
        · rintro (h | h | h)
          · exact Or.inl h
          · exact Or.inl (h ▸ hpacc)
          · exact Or.inr h
      · intro q hq hqacc
        rcases List.mem_cons.mp hq with rfl | hq2
        · exact absurd ((alookup_isSome_iff acc q.1).mp hin) hqacc
        · exact hnew2 q hq2 hqacc
    · have hnone : alookup acc p.1 = none := by
        cases hl : alookup acc p.1
        · rfl
        · rw [hl] at hin
          exact absurd rfl hin
      have hcol : t.column p.1 = .ok p.2 := by
        rw [Table.column, hsub p (List.mem_cons_self p l)]
      have hpacc : p.1 ∉ acc.map Prod.fst := by
        rw [← alookup_eq_none_iff]
        exact hnone
      obtain ⟨cols2, hfold, hN2, hlen2, hk2, hpres2, hnew2⟩ :=
        ih hNl2 hsub2
          (ainsert acc p.1 (Column.new (gidx.map
            (fun e => p.2.cells.getD (e.2.headD 0) ""))))
          (nodupKeys_ainsert _ _ _ hNacc)
          (by
            intro q hq
            rcases mem_ainsert _ _ _ _ hq with h | h
            · rw [h]
              show (gidx.map _).length = gidx.length
              rw [List.length_map]
            · exact hlenacc q h)
      refine ⟨cols2, ?_, hN2, hlen2, ?_, ?_, ?_⟩
      · rw [List.foldlM_cons, if_neg hin, hcol]
        exact hfold
      · intro k
        rw [hk2 k, mem_keys_ainsert, List.map_cons, List.mem_cons]
        constructor
        · rintro ((h | h) | h)
          · exact Or.inl h
          · exact Or.inr (Or.inl h)
          · exact Or.inr (Or.inr h)
        · rintro (h | h | h)
          · exact Or.inl (Or.inl h)
          · exact Or.inl (Or.inr h)
          · exact Or.inr h
      · intro k hk
        have hkne : k ≠ p.1 := fun hc => hpacc (hc ▸ hk)
        rw [hpres2 k (by
          rw [mem_keys_ainsert]
          exact Or.inl hk)]
        exact alookup_ainsert_ne acc p.1 k _ hkne
      · intro q hq hqacc
        rcases List.mem_cons.mp hq with rfl | hq2
        · rw [hpres2 q.1 (by
            rw [mem_keys_ainsert]
            exact Or.inr rfl)]
          exact alookup_ainsert_self acc q.1 _
        · have hqne : q.1 ≠ p.1 := by
            intro hc
            exact hpnotl (hc ▸ List.mem_map_of_mem Prod.fst hq2)
          refine hnew2 q hq2 ?_
          rw [mem_keys_ainsert]
          push_neg
          exact ⟨hqacc, hqne⟩

/-- C5.  With the grouping column and every descriptor column present,
`group_by_column` succeeds; it emits one row per distinct grouping
value, the index buckets partition the original row positions (each row
lies in exactly one group), and every column not named by a descriptor
keeps, per group, the value at the group's lowest original position
(the bucket head, which is a member of and a lower bound of its
bucket). -/
theorem group_by_spec (t : Table) (name : String) (ops : List Op)
    (cg : Column) (hg : alookup t.columns name = some cg)
    (hWF : cg.IdxWF) (hN : NodupKeys t.columns)
    (hlen : ∀ p ∈ t.columns, p.2.cells.length = t.rows_count)
    (hops : ∀ op ∈ ops, (alookup t.columns op.column_name).isSome = true) :
    ∃ t2, t.group_by_column name ops = .ok t2 ∧
      t2.rows_count = cg.cells.dedup.length ∧
      ((buildIndex cg.cells).map Prod.snd).flatten.Perm
        (List.range t.rows_count) ∧
      (∀ e ∈ buildIndex cg.cells, e.2 ≠ [] ∧ e.2.headD 0 ∈ e.2 ∧
        ∀ j ∈ e.2, e.2.headD 0 ≤ j) ∧
      (∀ p ∈ t.columns, p.1 ∉ ops.map (fun op => op.column_name) →
        alookup t2.columns p.1 = some (Column.new
          ((buildIndex cg.cells).map
            (fun e => p.2.cells.getD (e.2.headD 0) "")))) := by
  have hcol : t.column name = .ok cg := by
    rw [Table.column, hg]
  obtain ⟨cols1, hf1, hk1, hv1, hn1⟩ :=
    groupby_fold1 t cg.get_index.1 ops hops []
  obtain ⟨cols2, hf2, hN2, hlen2, hk2, hpres2, hnew2⟩ :=
    groupby_fold2 t cg.get_index.1 t.columns hN
      (fun p hp => alookup_of_mem_nodup t.columns hN p hp)
      cols1 (hn1 (by constructor))
      (fun q hq => (hv1 q hq).resolve_left (by simp))
  have hglen : cg.cells.length = t.rows_count :=
    hlen (name, cg) (alookup_mem t.columns name cg hg)
  have hnamemem : name ∈ cols2.map Prod.fst := by
    rw [hk2]
    exact Or.inr (List.mem_map_of_mem Prod.fst (alookup_mem _ _ _ hg))
  have hne2 : cols2 ≠ [] := by
    intro hc
    rw [hc] at hnamemem
    simp at hnamemem
  refine ⟨⟨cols2⟩, ?_, ?_, ?_, ?_, ?_⟩
  · unfold Table.group_by_column
    rw [hcol]
    show (do
      let cols1 ← ops.foldlM
        (fun (acc : List (String × Column)) op => do
          let col ← t.column op.column_name
          let new_cells := cg.get_index.1.map
            (fun e => op.operation (e.2.map (fun p => col.cells.getD p "")))
          pure (ainsert acc op.column_name (Column.new new_cells)))
        []
      let cols2 ← t.columns.foldlM
        (fun (acc : List (String × Column)) p =>
          if (alookup acc p.1).isSome then pure acc
          else do
            let col ← t.column p.1
            let new_cells := cg.get_index.1.map
              (fun e => col.cells.getD (e.2.headD 0) "")
            pure (ainsert acc p.1 (Column.new new_cells)))
        cols1
      pure (Table.mk cols2) : Except String Table) = .ok ⟨cols2⟩
    rw [hf1]
    show (do
      let cols2 ← t.columns.foldlM
        (fun (acc : List (String × Column)) p =>
          if (alookup acc p.1).isSome then pure acc
          else do
            let col ← t.column p.1
            let new_cells := cg.get_index.1.map
              (fun e => col.cells.getD (e.2.headD 0) "")
            pure (ainsert acc p.1 (Column.new new_cells)))
        cols1
      pure (Table.mk cols2) : Except String Table) = .ok ⟨cols2⟩
    rw [hf2]
    rfl
  · have := rows_count_of_uniform ⟨cols2⟩ cg.get_index.1.length hne2
      (fun p hp => hlen2 p hp)
    rw [this, get_index_fst cg hWF, buildIndex_length]
  · rw [← hglen]
    exact buildIndex_partition cg.cells
  · intro e he
    obtain ⟨hmem, hpos⟩ := buildIndex_entry cg.cells e he
    have hnil : e.2 ≠ [] := by
      rw [hpos, Ne, posList_eq_nil_iff]
      exact fun hc => hc hmem
    refine ⟨hnil, ?_, ?_⟩
    · cases hc : e.2 with
      | nil => exact absurd hc hnil
      | cons a l =>
        rw [List.headD_cons]
        exact List.mem_cons_self a l
    · intro j hj
      rw [hpos] at hj ⊢
      exact headD_le_of_pairwise_lt _ (posList_pairwise cg.cells e.1) j hj
  · intro p hp hpops
    have hnotc1 : p.1 ∉ cols1.map Prod.fst := by
      rw [hk1]
      push_neg
      exact ⟨by simp, hpops⟩
    rw [hnew2 p hp hnotc1, get_index_fst cg hWF]

/-- Witness for C5 at a concrete table: grouping `[a, a, b]` with one
concatenation descriptor on `v`. -/
theorem group_by_spec_witness :
    ∃ t2, (Table.mk [("k", Column.new ["a", "a", "b"]),
        ("v", Column.new ["1", "2", "3"]),
        ("w", Column.new ["p", "q", "r"])]).group_by_column "k"
        [⟨"v", fun l => String.intercalate "," l⟩] = .ok t2 ∧
      t2.rows_count = (Column.new ["a", "a", "b"]).cells.dedup.length ∧
      ((buildIndex (Column.new ["a", "a", "b"]).cells).map
        Prod.snd).flatten.Perm
        (List.range (Table.mk [("k", Column.new ["a", "a", "b"]),
          ("v", Column.new ["1", "2", "3"]),
          ("w", Column.new ["p", "q", "r"])]).rows_count) ∧
      (∀ e ∈ buildIndex (Column.new ["a", "a", "b"]).cells,
        e.2 ≠ [] ∧ e.2.headD 0 ∈ e.2 ∧ ∀ j ∈ e.2, e.2.headD 0 ≤ j) ∧
      (∀ p ∈ (Table.mk [("k", Column.new ["a", "a", "b"]),
          ("v", Column.new ["1", "2", "3"]),
          ("w", Column.new ["p", "q", "r"])]).columns,
        p.1 ∉ [Op.mk "v" (fun l => String.intercalate "," l)].map
          (fun op => op.column_name) →
        alookup t2.columns p.1 = some (Column.new
          ((buildIndex (Column.new ["a", "a", "b"]).cells).map
            (fun e => p.2.cells.getD (e.2.headD 0) "")))) :=
  group_by_spec _ "k" _ _ (by decide) (Or.inl rfl) (by decide)
    (by decide) (by
      intro op hop
      rcases List.mem_singleton.mp hop with rfl
      decide)

/-! ### C9: every table-producing operation keeps all columns the same
length -/

/-- Invariant (a) of the spec: every column has the table's row count as
its length. -/
def Table.EqLen (t : Table) : Prop :=
  ∀ p ∈ t.columns, p.2.cells.length = t.rows_count

/-- Equal-length accumulated rows in a builder. -/
def TableBuilder.EqLen (b : TableBuilder) : Prop :=
  ∀ q1 ∈ b.columns, ∀ q2 ∈ b.columns, q1.2.length = q2.2.length

theorem eqLen_of_uniform (t : Table) (L : Nat)
    (h : ∀ p ∈ t.columns, p.2.cells.length = L) : t.EqLen := by
  intro p hp
  cases hc : t.columns with
  | nil =>
    rw [hc] at hp
    simp at hp
  | cons q l =>
    rw [rows_count_of_uniform t L (by rw [hc]; simp) h]
    exact h p hp

theorem remap_EqLen (t : Table) (ps : List Nat) : (t.remap ps).EqLen :=
  eqLen_of_uniform _ ps.length (fun p hp => remap_col_length t ps p hp)

theorem select_fold_inv (t : Table) (L : Nat)
    (hT : ∀ p ∈ t.columns, p.2.cells.length = L) (names : List String) :
    ∀ acc cols,
      (names.foldlM
        (fun acc n => do
          let c ← t.column n
          pure (ainsert acc n c)) acc :
        Except String (List (String × Column))) = .ok cols →
      (∀ q ∈ acc, q.2.cells.length = L) → ∀ q ∈ cols, q.2.cells.length = L := by
  induction names with
  | nil =>
    intro acc cols h hacc
    have h2 : acc = cols := by
      have h3 : (Except.ok acc : Except String (List (String × Column))) =
        .ok cols := h
      rw [Except.ok.injEq] at h3
      exact h3
    rw [← h2]
    exact hacc
  | cons n names ih =>
    intro acc cols h hacc
    rw [List.foldlM_cons] at h
    cases hcl : alookup t.columns n with
    | none =>
      rw [show t.column n = .error ("colonna " ++ n ++ " non esiste") from
        by rw [Table.column, hcl]] at h
      have h2 : (Except.error ("colonna " ++ n ++ " non esiste") :
        Except String (List (String × Column))) = .ok cols := h
      exact absurd h2 (by simp)
    | some c =>
      rw [show t.column n = .ok c from by rw [Table.column, hcl]] at h
      have hc : c.cells.length = L := hT (n, c) (alookup_mem _ _ _ hcl)
      refine ih (ainsert acc n c) cols h ?_
      intro q hq
      rcases mem_ainsert _ _ _ _ hq with h2 | h2
      · rw [h2]
        exact hc
      · exact hacc q h2

theorem mem_foldl_cond_ainsert (name : String)
    (l : List (String × Column)) :
    ∀ acc q, q ∈ l.foldl
      (fun acc p => if name == p.1 then acc else ainsert acc p.1 p.2) acc →
      q ∈ acc ∨ q.2 ∈ l.map Prod.snd := by
  induction l with
  | nil => exact fun acc q hq => Or.inl hq
  | cons p l ih =>
    intro acc q hq
    rw [List.foldl_cons] at hq
    by_cases hb : (name == p.1) = true
    · rw [if_pos hb] at hq
      rcases ih acc q hq with h | h
      · exact Or.inl h
      · exact Or.inr (List.mem_cons_of_mem _ h)
    · rw [if_neg hb] at hq
      rcases ih _ q hq with h | h
      · rcases mem_ainsert _ _ _ _ h with h2 | h2
        · right
          rw [h2]
          exact List.mem_cons_self _ _
        · exact Or.inl h2
      · exact Or.inr (List.mem_cons_of_mem _ h)

theorem snd_mem_len (t : Table) (L : Nat)
    (hT : ∀ p ∈ t.columns, p.2.cells.length = L) (c : Column)
    (hc : c ∈ t.columns.map Prod.snd) : c.cells.length = L := by
  obtain ⟨p, hp, hpe⟩ := List.mem_map.mp hc
  rw [← hpe]
  exact hT p hp

theorem select_EqLen (t : Table) (names : List String) (t2 : Table)
    (h : t.EqLen) (hok : t.select_columns names = .ok t2) : t2.EqLen := by
  unfold Table.select_columns at hok
  cases hf : (names.foldlM
      (fun acc n => do
        let c ← t.column n
        pure (ainsert acc n c)) ([] : List (String × Column)) :
      Except String (List (String × Column))) with
  | error e =>
    rw [hf] at hok
    have h2 : (Except.error e : Except String Table) = .ok t2 := hok
    simp at h2
  | ok cols =>
    rw [hf] at hok
    have h2 : (Except.ok (Table.mk cols) : Except String Table) = .ok t2 :=
      hok
    rw [Except.ok.injEq] at h2
    subst h2
    exact eqLen_of_uniform _ t.rows_count
      (select_fold_inv t t.rows_count h names [] cols hf (by simp))

theorem deselect_EqLen (t : Table) (n : String) (t2 : Table)
    (h : t.EqLen) (hok : t.deselect_column n = .ok t2) : t2.EqLen := by
  have h2 : (if (t.columns.foldl
      (fun acc p => if n == p.1 then acc else ainsert acc p.1 p.2)
      []).length ≠ (t.columns.length + USIZE - 1) % USIZE then
      (.error ("colonna " ++ n ++ " non esiste") : Except String Table)
    else .ok ⟨t.columns.foldl
      (fun acc p => if n == p.1 then acc else ainsert acc p.1 p.2) []⟩) =
      .ok t2 := hok
  by_cases hcond : (t.columns.foldl
      (fun acc p => if n == p.1 then acc else ainsert acc p.1 p.2)
      []).length ≠ (t.columns.length + USIZE - 1) % USIZE
  · rw [if_pos hcond] at h2
    simp at h2
  · rw [if_neg hcond, Except.ok.injEq] at h2
    subst h2
    apply eqLen_of_uniform _ t.rows_count
    intro q hq
    rcases mem_foldl_cond_ainsert n t.columns [] q hq with hm | hm
    · simp at hm
    · exact snd_mem_len t t.rows_count h q.2 hm

theorem rename_EqLen (t : Table) (o n : String) (t2 : Table)
    (h : t.EqLen) (hok : t.rename_column o n = .ok t2) : t2.EqLen := by
  by_cases homem : o ∈ t.columns.map Prod.fst
  · have heq : t.rename_column o n = .ok
        ⟨(t.columns.map (fun p => (if o = p.1 then n else p.1, p.2))).foldl
          (fun a p => ainsert a p.1 p.2) []⟩ := by
      unfold Table.rename_column
      rw [rename_fold_eq, if_pos homem]
      rfl
    rw [heq, Except.ok.injEq] at hok
    subst hok
    apply eqLen_of_uniform _ t.rows_count
    intro q hq
    rcases mem_foldl_ainsert _ _ q hq with hm | hm
    · simp at hm
    · have : (t.columns.map
          (fun p => (if o = p.1 then n else p.1, p.2))).map Prod.snd =
          t.columns.map Prod.snd := by
        rw [List.map_map]
        rfl
      rw [this] at hm
      exact snd_mem_len t t.rows_count h q.2 hm
  · have heq : t.rename_column o n =
        .error ("colonna " ++ o ++ " non esiste") := by
      unfold Table.rename_column
      rw [rename_fold_eq, if_neg homem]
      rfl
    rw [heq] at hok
    simp at hok

theorem filter_EqLen (t : Table) (n : String) (f : String → Bool)
    (t2 : Table) (h : t.EqLen) (hok : t.filter_column n f = .ok t2) :
    t2.EqLen := by
  unfold Table.filter_column at hok
  cases hcl : alookup t.columns n with
  | none =>
    rw [show t.column n = .error ("colonna " ++ n ++ " non esiste") from
      by rw [Table.column, hcl]] at hok
    have h2 : (Except.error ("colonna " ++ n ++ " non esiste") :
      Except String Table) = .ok t2 := hok
    simp at h2
  | some c =>
    rw [show t.column n = .ok c from by rw [Table.column, hcl]] at hok
    have h2 : Except.ok (if (c.cells.enum.filterMap
        (fun iv => if f iv.2 then some iv.1 else none)).length ==
        t.rows_count then t
      else t.remap (c.cells.enum.filterMap
        (fun iv => if f iv.2 then some iv.1 else none))) = .ok t2 := hok
    rw [Except.ok.injEq] at h2
    by_cases hb : ((c.cells.enum.filterMap
        (fun iv => if f iv.2 then some iv.1 else none)).length ==
        t.rows_count) = true
    · rw [if_pos hb] at h2
      rw [← h2]
      exact h
    · rw [if_neg hb] at h2
      rw [← h2]
      exact remap_EqLen t _

theorem diff_EqLen (t : Table) (n : String) (other : Table) (m : String)
    (t2 : Table) (hok : t.diff_on_columns n other m = .ok t2) : t2.EqLen := by
  unfold Table.diff_on_columns at hok
  cases hcl : alookup t.columns n with
  | none =>
    rw [show t.column n = .error ("colonna " ++ n ++ " non esiste") from
      by rw [Table.column, hcl]] at hok
    have h2 : (Except.error ("colonna " ++ n ++ " non esiste") :
      Except String Table) = .ok t2 := hok
    simp at h2
  | some c =>
    rw [show t.column n = .ok c from by rw [Table.column, hcl]] at hok
    cases hcl2 : alookup other.columns m with
    | none =>
      rw [show other.column m = .error ("colonna " ++ m ++ " non esiste")
        from by rw [Table.column, hcl2]] at hok
      have h2 : (Except.error ("colonna " ++ m ++ " non esiste") :
        Except String Table) = .ok t2 := hok
      simp at h2
    | some c2 =>
      rw [show other.column m = .ok c2 from by rw [Table.column, hcl2]]
        at hok
      have h2 : Except.ok (t.remap (c.cells.enum.filterMap
          (fun pv => if (alookup c2.get_index.1 pv.2).isSome then none
            else some pv.1))) = .ok t2 := hok
      rw [Except.ok.injEq] at h2
      rw [← h2]
      exact remap_EqLen t _

theorem map_EqLen (t : Table) (n : String) (f : String → String)
    (t2 : Table) (h : t.EqLen) (hok : t.map_column n f = .ok t2) :
    t2.EqLen := by
  unfold Table.map_column at hok
  cases hcl : alookup t.columns n with
  | none =>
    rw [show t.column n = .error ("colonna " ++ n ++ " non esiste") from
      by rw [Table.column, hcl]] at hok
    have h2 : (Except.error ("colonna " ++ n ++ " non esiste") :
      Except String Table) = .ok t2 := hok
    simp at h2
  | some c =>
    rw [show t.column n = .ok c from by rw [Table.column, hcl]] at hok
    have h2 : Except.ok (Table.mk (t.columns.map
        (fun p => if n == p.1 then (p.1, Column.new (c.cells.map f))
          else p))) = .ok t2 := hok
    rw [Except.ok.injEq] at h2
    subst h2
    apply eqLen_of_uniform _ t.rows_count
    intro q hq
    obtain ⟨p, hp, hpe⟩ := List.mem_map.mp hq
    by_cases hb : (n == p.1) = true
    · rw [if_pos hb] at hpe
      rw [← hpe]
      show (c.cells.map f).length = t.rows_count
      rw [List.length_map]
      exact h (n, c) (alookup_mem _ _ _ hcl)
    · rw [if_neg hb] at hpe
      rw [← hpe]
      exact h p hp

theorem dinstinct_EqLen (t : Table) (n : String) (t2 : Table)
    (hok : t.dinstinct_column n = .ok t2) : t2.EqLen := by
  unfold Table.dinstinct_column at hok
  cases hcl : alookup t.columns n with
  | none =>
    rw [show t.column n = .error ("colonna " ++ n ++ " non esiste") from
      by rw [Table.column, hcl]] at hok
    have h2 : (Except.error ("colonna " ++ n ++ " non esiste") :
      Except String Table) = .ok t2 := hok
    simp at h2
  | some c =>
    rw [show t.column n = .ok c from by rw [Table.column, hcl]] at hok
    have h2 : Except.ok (t.remap ((c.cells.enum.foldl
        (fun (st : List String × List Nat) pv =>
          if st.1.contains pv.2 then st
          else (pv.2 :: st.1, st.2 ++ [pv.1])) ([], [])).2)) = .ok t2 := hok
    rw [Except.ok.injEq] at h2
    rw [← h2]
    exact remap_EqLen t _

theorem sort_EqLen (t : Table) (n : String) (t2 : Table)
    (hok : t.sort_column n = .ok t2) : t2.EqLen := by
  unfold Table.sort_column at hok
  cases hcl : alookup t.columns n with
  | none =>
    rw [show t.column n = .error ("colonna " ++ n ++ " non esiste") from
      by rw [Table.column, hcl]] at hok
    have h2 : (Except.error ("colonna " ++ n ++ " non esiste") :
      Except String Table) = .ok t2 := hok
    simp at h2
  | some c =>
    rw [show t.column n = .ok c from by rw [Table.column, hcl]] at hok
    have h2 : Except.ok (t.remap ((sortStable (fun a b => a.2 ≤ b.2)
        c.cells.enum).map (fun pv => pv.1))) = .ok t2 := hok
    rw [Except.ok.injEq] at h2
    rw [← h2]
    exact remap_EqLen t _

theorem sort_by_EqLen (t : Table) (n : String)
    (ord : String → String → Ordering) (t2 : Table)
    (hok : t.sort_column_by n ord = .ok t2) : t2.EqLen := by
  unfold Table.sort_column_by at hok
  cases hcl : alookup t.columns n with
  | none =>
    rw [show t.column n = .error ("colonna " ++ n ++ " non esiste") from
      by rw [Table.column, hcl]] at hok
    have h2 : (Except.error ("colonna " ++ n ++ " non esiste") :
      Except String Table) = .ok t2 := hok
    simp at h2
  | some c =>
    rw [show t.column n = .ok c from by rw [Table.column, hcl]] at hok
    have h2 : Except.ok (t.remap ((sortStable
        (fun a b => ord a.2 b.2 ≠ Ordering.gt)
        c.cells.enum).map (fun pv => pv.1))) = .ok t2 := hok
    rw [Except.ok.injEq] at h2
    rw [← h2]
    exact remap_EqLen t _

theorem concat_mapM_inv (other : Table) (LB : Nat)
    (hO : ∀ p ∈ other.columns, p.2.cells.length = LB) (LA : Nat) :
    ∀ (l : List (String × Column)) (cols : List (String × Column)),
      (∀ p ∈ l, p.2.cells.length = LA) →
      (l.mapM (fun p => do
        let msg := "la seconda table in concatenazione non ha la colonna " ++
          p.1
        let other_col ←
          match alookup other.columns p.1 with
          | some c => Except.ok c
          | none => Except.error msg
        pure (p.1, Column.new (p.2.cells ++ other_col.cells))) :
          Except String (List (String × Column))) = .ok cols →
      ∀ q ∈ cols, q.2.cells.length = LA + LB := by
  intro l
  induction l with
  | nil =>
    intro cols _ hok q hq
    have h2 : (Except.ok ([] : List (String × Column)) :
      Except String (List (String × Column))) = .ok cols := hok
    rw [Except.ok.injEq] at h2
    rw [← h2] at hq
    simp at hq
  | cons p l ih =>
    intro cols hlen hok q hq
    rw [List.mapM_cons] at hok
    cases hcl : alookup other.columns p.1 with
    | none =>
      rw [hcl] at hok
      have h2 : (Except.error
        ("la seconda table in concatenazione non ha la colonna " ++ p.1) :
        Except String (List (String × Column))) = .ok cols := hok
      simp at h2
    | some oc =>
      rw [hcl] at hok
      cases hm : (l.mapM (fun p => do
          let msg :=
            "la seconda table in concatenazione non ha la colonna " ++ p.1
          let other_col ←
            match alookup other.columns p.1 with
            | some c => Except.ok c
            | none => Except.error msg
          pure (p.1, Column.new (p.2.cells ++ other_col.cells))) :
            Except String (List (String × Column))) with
      | error e =>
        rw [hm] at hok
        have h2 : (Except.error e :
          Except String (List (String × Column))) = .ok cols := hok
        simp at h2
      | ok cols0 =>
        rw [hm] at hok
        have h2 : (Except.ok
          ((p.1, Column.new (p.2.cells ++ oc.cells)) :: cols0) :
          Except String (List (String × Column))) = .ok cols := hok
        rw [Except.ok.injEq] at h2
        rw [← h2] at hq
        rcases List.mem_cons.mp hq with rfl | hq2
        · show (p.2.cells ++ oc.cells).length = LA + LB
          rw [List.length_append,
            hlen p (List.mem_cons_self _ _),
            hO (p.1, oc) (alookup_mem _ _ _ hcl)]
        · exact ih cols0 (fun r hr => hlen r (List.mem_cons_of_mem _ hr))
            hm q hq2

theorem concatenate_EqLen (t other : Table) (t2 : Table) (h : t.EqLen)
    (hother : other.EqLen) (hok : t.concatenate other = .ok t2) :
    t2.EqLen := by
  unfold Table.concatenate at hok
  cases hm : (t.columns.mapM (fun p => do
      let msg := "la seconda table in concatenazione non ha la colonna " ++
        p.1
      let other_col ←
        match alookup other.columns p.1 with
        | some c => Except.ok c
        | none => Except.error msg
      pure (p.1, Column.new (p.2.cells ++ other_col.cells))) :
        Except String (List (String × Column))) with
  | error e =>
    rw [hm] at hok
    have h2 : (Except.error e : Except String Table) = .ok t2 := hok
    simp at h2
  | ok cols =>
    rw [hm] at hok
    have h2 : (Except.ok (Table.mk cols) : Except String Table) = .ok t2 :=
      hok
    rw [Except.ok.injEq] at h2
    subst h2
    exact eqLen_of_uniform _ (t.rows_count + other.rows_count)
      (concat_mapM_inv other other.rows_count hother t.rows_count
        t.columns cols h hm)

theorem create_fixed_EqLen (t : Table) (n v : String) (h : t.EqLen) :
    (t.create_fixed_column n v).EqLen := by
  unfold Table.create_fixed_column
  apply eqLen_of_uniform _ t.rows_count
  intro q hq
  rcases mem_ainsert _ _ _ _ hq with h2 | h2
  · rw [h2]
    show (List.replicate t.rows_count v).length = t.rows_count
    rw [List.length_replicate]
  · exact h q h2

theorem create_column_EqLen (t : Table) (expr : MiOp) (t2 : Table)
    (h : t.EqLen) (hok : t.create_column expr = .ok t2) : t2.EqLen := by
  unfold Table.create_column at hok
  cases hm : (expr.in_columns.mapM t.column :
      Except String (List Column)) with
  | error e =>
    rw [hm] at hok
    have h2 : (Except.error e : Except String Table) = .ok t2 := hok
    simp at h2
  | ok inputs =>
    rw [hm] at hok
    have h2 : (Except.ok (Table.mk (ainsert t.columns expr.out_column
        (Column.new ((List.range t.rows_count).map
          (fun position => expr.operation (inputs.map
            (fun col => col.cells.getD position ""))))))) :
        Except String Table) = .ok t2 := hok
    rw [Except.ok.injEq] at h2
    subst h2
    apply eqLen_of_uniform _ t.rows_count
    intro q hq
    rcases mem_ainsert _ _ _ _ hq with h2 | h2
    · rw [h2]
      show ((List.range t.rows_count).map _).length = t.rows_count
      rw [List.length_map, List.length_range]
    · exact h q h2

theorem concatenate_columns_EqLen (t : Table) (c1 : String) (sep : Char)
    (c2 nc : String) (t2 : Table) (h : t.EqLen)
    (hok : t.concatenate_columns c1 sep c2 nc = .ok t2) : t2.EqLen := by
  unfold Table.concatenate_columns at hok
  cases hcl : alookup t.columns c1 with
  | none =>
    rw [show t.column c1 = .error ("colonna " ++ c1 ++ " non esiste") from
      by rw [Table.column, hcl]] at hok
    have h2 : (Except.error ("colonna " ++ c1 ++ " non esiste") :
      Except String Table) = .ok t2 := hok
    simp at h2
  | some a =>
    rw [show t.column c1 = .ok a from by rw [Table.column, hcl]] at hok
    cases hcl2 : alookup t.columns c2 with
    | none =>
      rw [show t.column c2 = .error ("colonna " ++ c2 ++ " non esiste") from
        by rw [Table.column, hcl2]] at hok
      have h2 : (Except.error ("colonna " ++ c2 ++ " non esiste") :
        Except String Table) = .ok t2 := hok
      simp at h2
    | some b =>
      rw [show t.column c2 = .ok b from by rw [Table.column, hcl2]] at hok
      have h2 : (Except.ok (Table.mk (ainsert t.columns nc
          (Column.new ((a.cells.zip b.cells).map
            (fun ab => ab.1 ++ sep.toString ++ ab.2))))) :
          Except String Table) = .ok t2 := hok
      rw [Except.ok.injEq] at h2
      subst h2
      apply eqLen_of_uniform _ t.rows_count
      intro q hq
      rcases mem_ainsert _ _ _ _ hq with h2 | h2
      · rw [h2]
        show ((a.cells.zip b.cells).map _).length = t.rows_count
        rw [List.length_map, List.length_zip,
          h (c1, a) (alookup_mem _ _ _ hcl),
          h (c2, b) (alookup_mem _ _ _ hcl2), Nat.min_self]
      · exact h q h2

theorem join_EqLen (A : Table) (kA : String) (B : Table) (kB : String)
    (t2 : Table) (hok : A.join_on_columns kA B kB = .ok t2) : t2.EqLen := by
  cases halA : alookup A.columns kA with
  | none =>
    unfold Table.join_on_columns join_go at hok
    rw [show A.column kA = .error ("colonna " ++ kA ++ " non esiste") from
      by rw [Table.column, halA]] at hok
    have h2 : (Except.error ("colonna " ++ kA ++ " non esiste") :
      Except String Table) = .ok t2 := hok
    simp at h2
  | some cA =>
    cases halB : alookup B.columns kB with
    | none =>
      unfold Table.join_on_columns join_go at hok
      rw [show A.column kA = .ok cA from by rw [Table.column, halA],
        show B.column kB = .error ("colonna " ++ kB ++ " non esiste") from
          by rw [Table.column, halB]] at hok
      have h2 : (Except.error ("colonna " ++ kB ++ " non esiste") :
        Except String Table) = .ok t2 := hok
      simp at h2
    | some cB =>
      rw [join_on_columns_eq A kA B kB cA cB halA halB,
        Except.ok.injEq] at hok
      by_cases hcond : joinCond cA cB = true
      · rw [if_pos hcond] at hok
        rw [← hok]
        exact eqLen_of_uniform _ _ (joinIndexed_uniform A B cA cB)
      · rw [if_neg hcond] at hok
        rw [← hok]
        exact eqLen_of_uniform _ _ (joinIndexed_uniform B A cB cA)

theorem groupby_fold1_inv (t : Table) (gidx : ColumnIndex) :
    ∀ (ops : List Op) (acc cols1 : List (String × Column)),
      (ops.foldlM
        (fun (acc : List (String × Column)) op => do
          let col ← t.column op.column_name
          let new_cells := gidx.map
            (fun e => op.operation (e.2.map (fun p => col.cells.getD p "")))
          pure (ainsert acc op.column_name (Column.new new_cells)))
        acc : Except String (List (String × Column))) = .ok cols1 →
      (∀ q ∈ acc, q.2.cells.length = gidx.length) →
      ∀ q ∈ cols1, q.2.cells.length = gidx.length := by
  intro ops
  induction ops with
  | nil =>
    intro acc cols1 hok hacc
    have h2 : (Except.ok acc :
      Except String (List (String × Column))) = .ok cols1 := hok
    rw [Except.ok.injEq] at h2
    rw [← h2]
    exact hacc
  | cons op ops ih =>
    intro acc cols1 hok hacc
    rw [List.foldlM_cons] at hok
    cases hcl : alookup t.columns op.column_name with
    | none =>
      rw [show t.column op.column_name =
        .error ("colonna " ++ op.column_name ++ " non esiste") from
        by rw [Table.column, hcl]] at hok
      have h2 : (Except.error ("colonna " ++ op.column_name ++
        " non esiste") : Except String (List (String × Column))) =
        .ok cols1 := hok
      simp at h2
    | some co =>
      rw [show t.column op.column_name = .ok co from
        by rw [Table.column, hcl]] at hok
      refine ih _ cols1 hok ?_
      intro q hq
      rcases mem_ainsert _ _ _ _ hq with h2 | h2
      · rw [h2]
        show (gidx.map _).length = gidx.length
        rw [List.length_map]
      · exact hacc q h2

theorem groupby_fold2_inv (t : Table) (gidx : ColumnIndex) :
    ∀ (l : List (String × Column)) (acc cols2 : List (String × Column)),
      (l.foldlM
        (fun (acc : List (String × Column)) p =>
          if (alookup acc p.1).isSome then pure acc
          else do
            let col ← t.column p.1
            let new_cells := gidx.map
              (fun e => col.cells.getD (e.2.headD 0) "")
            pure (ainsert acc p.1 (Column.new new_cells)))
        acc : Except String (List (String × Column))) = .ok cols2 →
      (∀ q ∈ acc, q.2.cells.length = gidx.length) →
      ∀ q ∈ cols2, q.2.cells.length = gidx.length := by
  intro l
  induction l with
  | nil =>
    intro acc cols2 hok hacc
    have h2 : (Except.ok acc :
      Except String (List (String × Column))) = .ok cols2 := hok
    rw [Except.ok.injEq] at h2
    rw [← h2]
    exact hacc
  | cons p l ih =>
    intro acc cols2 hok hacc
    rw [List.foldlM_cons] at hok
    by_cases hb : (alookup acc p.1).isSome = true
    · rw [if_pos hb] at hok
      exact ih acc cols2 hok hacc
    · rw [if_neg hb] at hok
      cases hcl : alookup t.columns p.1 with
      | none =>
        rw [show t.column p.1 =
          .error ("colonna " ++ p.1 ++ " non esiste") from
          by rw [Table.column, hcl]] at hok
        have h2 : (Except.error ("colonna " ++ p.1 ++ " non esiste") :
          Except String (List (String × Column))) = .ok cols2 := hok
        simp at h2
      | some co =>
        rw [show t.column p.1 = .ok co from
          by rw [Table.column, hcl]] at hok
        refine ih _ cols2 hok ?_
        intro q hq
        rcases mem_ainsert _ _ _ _ hq with h2 | h2
        · rw [h2]
          show (gidx.map _).length = gidx.length
          rw [List.length_map]
        · exact hacc q h2

theorem group_by_EqLen (t : Table) (n : String) (ops : List Op)
    (t2 : Table) (hok : t.group_by_column n ops = .ok t2) : t2.EqLen := by
  unfold Table.group_by_column at hok
  cases hcl : alookup t.columns n with
  | none =>
    rw [show t.column n = .error ("colonna " ++ n ++ " non esiste") from
      by rw [Table.column, hcl]] at hok
    have h2 : (Except.error ("colonna " ++ n ++ " non esiste") :
      Except String Table) = .ok t2 := hok
    simp at h2
  | some cg =>
    rw [show t.column n = .ok cg from by rw [Table.column, hcl]] at hok
    have hok2 : (do
        let cols1 ← ops.foldlM
          (fun (acc : List (String × Column)) op => do
            let col ← t.column op.column_name
            let new_cells := cg.get_index.1.map
              (fun e => op.operation
                (e.2.map (fun p => col.cells.getD p "")))
            pure (ainsert acc op.column_name (Column.new new_cells)))
          []
        let cols2 ← t.columns.foldlM
          (fun (acc : List (String × Column)) p =>
            if (alookup acc p.1).isSome then pure acc
            else do
              let col ← t.column p.1
              let new_cells := cg.get_index.1.map
                (fun e => col.cells.getD (e.2.headD 0) "")
              pure (ainsert acc p.1 (Column.new new_cells)))
          cols1
        pure (Table.mk cols2) : Except String Table) = .ok t2 := hok
    cases hf1 : (ops.foldlM
        (fun (acc : List (String × Column)) op => do
          let col ← t.column op.column_name
          let new_cells := cg.get_index.1.map
            (fun e => op.operation (e.2.map (fun p => col.cells.getD p "")))
          pure (ainsert acc op.column_name (Column.new new_cells)))
        [] : Except String (List (String × Column))) with
    | error e =>
      rw [hf1] at hok2
      have h3 : (Except.error e : Except String Table) = .ok t2 := hok2
      simp at h3
    | ok cols1 =>
      rw [hf1] at hok2
      have hok3 : (do
          let cols2 ← t.columns.foldlM
            (fun (acc : List (String × Column)) p =>
              if (alookup acc p.1).isSome then pure acc
              else do
                let col ← t.column p.1
                let new_cells := cg.get_index.1.map
                  (fun e => col.cells.getD (e.2.headD 0) "")
                pure (ainsert acc p.1 (Column.new new_cells)))
            cols1
          pure (Table.mk cols2) : Except String Table) = .ok t2 := hok2
      cases hf2 : (t.columns.foldlM
          (fun (acc : List (String × Column)) p =>
            if (alookup acc p.1).isSome then pure acc
            else do
              let col ← t.column p.1
              let new_cells := cg.get_index.1.map
                (fun e => col.cells.getD (e.2.headD 0) "")
              pure (ainsert acc p.1 (Column.new new_cells)))
          cols1 : Except String (List (String × Column))) with
      | error e =>
        rw [hf2] at hok3
        have h3 : (Except.error e : Except String Table) = .ok t2 := hok3
        simp at h3
      | ok cols2 =>
        rw [hf2] at hok3
        have h3 : (Except.ok (Table.mk cols2) : Except String Table) =
          .ok t2 := hok3
        rw [Except.ok.injEq] at h3
        rw [← h3]
        apply eqLen_of_uniform _ cg.get_index.1.length
        exact groupby_fold2_inv t cg.get_index.1 t.columns cols1 cols2 hf2
          (groupby_fold1_inv t cg.get_index.1 ops [] cols1 hf1
            (by simp))

theorem builder_new_EqLen (names : List String) :
    (TableBuilder.new names).EqLen := by
  intro q1 hq1 q2 hq2
  unfold TableBuilder.new at hq1 hq2
  obtain ⟨n1, _, h1⟩ := List.mem_map.mp hq1
  obtain ⟨n2, _, h2⟩ := List.mem_map.mp hq2
  rw [← h1, ← h2]

theorem builder_add_row_EqLen (b : TableBuilder) (cells : List String)
    (b2 : TableBuilder) (h : b.EqLen) (hok : b.add_row cells = .ok b2) :
    b2.EqLen := by
  unfold TableBuilder.add_row at hok
  by_cases hb : cells.length ≠ b.columns.length
  · rw [if_pos hb] at hok
    simp at hok
  · rw [if_neg hb] at hok
    rw [Except.ok.injEq] at hok
    rw [← hok]
    intro q1 hq1 q2 hq2
    obtain ⟨pc1, hpc1, h1⟩ := List.mem_map.mp hq1
    obtain ⟨pc2, hpc2, h2⟩ := List.mem_map.mp hq2
    rw [← h1, ← h2]
    show (pc1.1.2 ++ [pc1.2]).length = (pc2.1.2 ++ [pc2.2]).length
    rw [List.length_append, List.length_append,
      h pc1.1 (List.of_mem_zip hpc1).1 pc2.1 (List.of_mem_zip hpc2).1]
    rfl

theorem builder_build_EqLen (b : TableBuilder) (h : b.EqLen) :
    b.build.EqLen := by
  unfold TableBuilder.build
  have hfold : b.columns.foldl
      (fun acc p => ainsert acc p.1 (Column.new p.2)) [] =
      (b.columns.map (fun p => (p.1, Column.new p.2))).foldl
        (fun a p => ainsert a p.1 p.2) [] := by
    rw [List.foldl_map]
  rw [hfold]
  cases hc : b.columns with
  | nil =>
    intro q hq
    simp at hq
  | cons p0 l0 =>
    apply eqLen_of_uniform _ p0.2.length
    intro q hq
    rcases mem_foldl_ainsert _ _ q hq with hm | hm
    · simp at hm
    · obtain ⟨r, hr, hre⟩ := List.mem_map.mp hm
      obtain ⟨s, hs, hse⟩ := List.mem_map.mp hr
      rw [← hre, ← hse]
      show s.2.length = p0.2.length
      rw [← hc] at hs
      exact h s hs p0 (by rw [hc]; exact List.mem_cons_self _ _)

/-- C9.  Every table-producing operation preserves the equal-length
invariant: whenever the inputs have all columns of one length, every
table (or builder) the operation returns does too. -/
theorem ops_preserve_EqLen :
    (∀ (t : Table) (names : List String) (t2 : Table), t.EqLen →
      t.select_columns names = .ok t2 → t2.EqLen) ∧
    (∀ (t : Table) (n : String) (t2 : Table), t.EqLen →
      t.deselect_column n = .ok t2 → t2.EqLen) ∧
    (∀ (t : Table) (o n : String) (t2 : Table), t.EqLen →
      t.rename_column o n = .ok t2 → t2.EqLen) ∧
    (∀ (t : Table) (n : String) (f : String → Bool) (t2 : Table),
      t.EqLen → t.filter_column n f = .ok t2 → t2.EqLen) ∧
    (∀ (t : Table) (n : String) (other : Table) (m : String) (t2 : Table),
      t.diff_on_columns n other m = .ok t2 → t2.EqLen) ∧
    (∀ (t : Table) (n : String) (f : String → String) (t2 : Table),
      t.EqLen → t.map_column n f = .ok t2 → t2.EqLen) ∧
    (∀ (t : Table) (n : String) (t2 : Table),
      t.dinstinct_column n = .ok t2 → t2.EqLen) ∧
    (∀ (t : Table) (n : String) (t2 : Table),
      t.sort_column n = .ok t2 → t2.EqLen) ∧
    (∀ (t : Table) (n : String) (ord : String → String → Ordering)
      (t2 : Table), t.sort_column_by n ord = .ok t2 → t2.EqLen) ∧
    (∀ (t other : Table) (t2 : Table), t.EqLen → other.EqLen →
      t.concatenate other = .ok t2 → t2.EqLen) ∧
    (∀ (t : Table) (n v : String), t.EqLen →
      (t.create_fixed_column n v).EqLen) ∧
    (∀ (t : Table) (expr : MiOp) (t2 : Table), t.EqLen →
      t.create_column expr = .ok t2 → t2.EqLen) ∧
    (∀ (t : Table) (c1 : String) (sep : Char) (c2 nc : String)
      (t2 : Table), t.EqLen →
      t.concatenate_columns c1 sep c2 nc = .ok t2 → t2.EqLen) ∧
    (∀ (A : Table) (kA : String) (B : Table) (kB : String) (t2 : Table),
      A.join_on_columns kA B kB = .ok t2 → t2.EqLen) ∧
    (∀ (t : Table) (n : String) (ops : List Op) (t2 : Table),
      t.group_by_column n ops = .ok t2 → t2.EqLen) ∧
    (∀ names : List String, (TableBuilder.new names).EqLen) ∧
    (∀ (b : TableBuilder) (cells : List String) (b2 : TableBuilder),
      b.EqLen → b.add_row cells = .ok b2 → b2.EqLen) ∧
    (∀ b : TableBuilder, b.EqLen → b.build.EqLen) :=
  ⟨select_EqLen, deselect_EqLen, rename_EqLen, filter_EqLen, diff_EqLen,
    map_EqLen, dinstinct_EqLen, sort_EqLen, sort_by_EqLen,
    concatenate_EqLen, create_fixed_EqLen, create_column_EqLen,
    concatenate_columns_EqLen, join_EqLen, group_by_EqLen,
    builder_new_EqLen, builder_add_row_EqLen, builder_build_EqLen⟩

/-- Witness for C9: the invariant after a concrete select. -/
theorem ops_preserve_EqLen_witness :
    (Table.mk [("b", Column.new ["x", "y"])]).EqLen :=
  ops_preserve_EqLen.1
    (Table.mk [("a", Column.new ["1", "2"]), ("b", Column.new ["x", "y"])])
    ["b"] (Table.mk [("b", Column.new ["x", "y"])])
    (by unfold Table.EqLen; decide) (by rfl)

/-! ### C3: which side the heuristic indexes -/

/-- The logical row of a table at a given position: each column name is
sent to that column's cell there (none for a foreign name). -/
def rowFun (t : Table) (i : Nat) : String → Option String :=
  fun n => (alookup t.columns n).map (fun c => c.cells.getD i "")

/-- The multiset of a table's rows. -/
def rowsMultiset (t : Table) : Multiset (String → Option String) :=
  (((List.range t.rows_count).map (rowFun t) :
    List (String → Option String)) : Multiset (String → Option String))

/-- The matched position pairs (indexed side, probing side) the probing
loop emits, in emission order. -/
def pairList (idx : ColumnIndex) (cells : List String) : List (Nat × Nat) :=
  cells.enum.flatMap
    (fun pv => ((alookup idx pv.2).getD []).map (fun i => (i, pv.1)))

theorem probePairs_fst_pairList (idx : ColumnIndex) (cells : List String) :
    (probePairs idx cells).1 = (pairList idx cells).map Prod.fst := by
  rw [probePairs_eq]
  show cells.enum.flatMap (fun pv => (alookup idx pv.2).getD []) = _
  rw [pairList, List.map_flatMap]
  congr 1
  funext pv
  rw [List.map_map]
  have hcomp : (Prod.fst ∘ fun i : Nat => (i, pv.1)) = id := by
    funext i
    rfl
  rw [hcomp, List.map_id]

theorem probePairs_snd_pairList (idx : ColumnIndex) (cells : List String) :
    (probePairs idx cells).2 = (pairList idx cells).map Prod.snd := by
  rw [probePairs_eq]
  show cells.enum.flatMap
    (fun pv => List.replicate ((alookup idx pv.2).getD []).length pv.1) = _
  rw [pairList, List.map_flatMap]
  congr 1
  funext pv
  rw [List.map_map]
  have hcomp : (Prod.snd ∘ fun i : Nat => (i, pv.1)) =
      fun _ : Nat => pv.1 := by
    funext i
    rfl
  rw [hcomp, List.map_const']

/-- The bucket a value gets in the built index is exactly its position
list (the empty list for a value that never occurs). -/
theorem bucket_eq_posList (cells : List String) (v : String) :
    (alookup (buildIndex cells) v).getD [] = posList cells v := by
  rw [alookup_buildIndex]
  by_cases h : v ∈ cells
  · rw [if_pos h]
    rfl
  · rw [if_neg h]
    show ([] : List Nat) = _
    rw [(posList_eq_nil_iff cells v).mpr h]

theorem mem_pairList (cellsA cellsB : List String) (i j : Nat) :
    (i, j) ∈ pairList (buildIndex cellsA) cellsB ↔
      i < cellsA.length ∧ j < cellsB.length ∧
        cellsA.getD i "" = cellsB.getD j "" := by
  rw [pairList, List.mem_flatMap]
  constructor
  · rintro ⟨pv, hpv, hmem⟩
    rw [List.mem_map] at hmem
    obtain ⟨a, ha, hae⟩ := hmem
    have hai : a = i := congrArg Prod.fst hae
    have hpj : pv.1 = j := congrArg Prod.snd hae
    subst hai
    rw [bucket_eq_posList, mem_posList] at ha
    have hjv : cellsB[pv.1]? = some pv.2 :=
      List.mk_mem_enum_iff_getElem?.mp (by
        cases pv
        exact hpv)
    have hjlt : pv.1 < cellsB.length := by
      by_contra hge
      rw [List.getElem?_eq_none (Nat.le_of_not_lt hge)] at hjv
      exact absurd hjv (by simp)
    refine ⟨ha.1, hpj ▸ hjlt, ?_⟩
    rw [ha.2, ← hpj]
    have : cellsB.getD pv.1 "" = pv.2 := by
      rw [List.getD_eq_getElem?_getD, hjv]
      rfl
    rw [this]
  · rintro ⟨hiA, hjB, heq⟩
    refine ⟨(j, cellsB.getD j ""), ?_, ?_⟩
    · apply List.mk_mem_enum_iff_getElem?.mpr
      rw [List.getElem?_eq_getElem hjB]
      rw [Option.some_inj]
      rw [List.getD_eq_getElem?_getD, List.getElem?_eq_getElem hjB]
      rfl
    · rw [List.mem_map]
      refine ⟨i, ?_, rfl⟩
      rw [bucket_eq_posList, mem_posList]
      exact ⟨hiA, heq⟩

theorem pairListFrom_nodup (idx : ColumnIndex)
    (hbuck : ∀ v, ((alookup idx v).getD []).Nodup) (cells : List String) :
    ∀ k, ((List.enumFrom k cells).flatMap
        (fun pv => ((alookup idx pv.2).getD []).map
          (fun i => (i, pv.1)))).Nodup ∧
      ∀ q ∈ (List.enumFrom k cells).flatMap
        (fun pv => ((alookup idx pv.2).getD []).map (fun i => (i, pv.1))),
        k ≤ q.2 := by
  induction cells with
  | nil => exact fun k => ⟨List.nodup_nil, fun q hq => absurd hq (by simp)⟩
  | cons c cs ih =>
    intro k
    show ((((alookup idx c).getD []).map (fun i => (i, k)) ++
      (List.enumFrom (k + 1) cs).flatMap _).Nodup ∧ _)
    obtain ⟨ihn, ihge⟩ := ih (k + 1)
    constructor
    · rw [List.nodup_append]
      refine ⟨?_, ihn, ?_⟩
      · exact (hbuck c).map (fun a b hab => congrArg Prod.fst hab)
      · intro q hq hq2
        obtain ⟨a, _, hae⟩ := List.mem_map.mp hq
        have h1 : q.2 = k := by
          rw [← hae]
        have h2 : k + 1 ≤ q.2 := ihge q hq2
        omega
    · intro q hq
      rw [show List.enumFrom k (c :: cs) = (k, c) :: List.enumFrom (k + 1) cs
        from rfl, List.flatMap_cons, List.mem_append] at hq
      rcases hq with hq | hq
      · obtain ⟨a, _, hae⟩ := List.mem_map.mp hq
        have : q.2 = k := by rw [← hae]
        omega
      · have := ihge q hq
        omega

theorem pairList_nodup (cellsA cellsB : List String) :
    (pairList (buildIndex cellsA) cellsB).Nodup := by
  have hbuck : ∀ v, ((alookup (buildIndex cellsA) v).getD []).Nodup := by
    intro v
    rw [bucket_eq_posList]
    exact posList_nodup cellsA v
  exact (pairListFrom_nodup (buildIndex cellsA) hbuck cellsB 0).1

theorem list_map_range_getD {α β : Type} (l : List α) (d : α) (g : α → β) :
    (List.range l.length).map (fun r => g (l.getD r d)) = l.map g := by
  induction l with
  | nil => rfl
  | cons a l ih =>
    calc (List.range (a :: l).length).map (fun r => g ((a :: l).getD r d))
        = g a :: ((List.range l.length).map Nat.succ).map
            (fun r => g ((a :: l).getD r d)) := by
          rw [List.length_cons, List.range_succ_eq_map, List.map_cons,
            List.getD_cons_zero]
      _ = g a :: (List.range l.length).map (fun r => g (l.getD r d)) := by
          rw [List.map_map]
          congr 1
      _ = g a :: l.map g := by rw [ih]
      _ = (a :: l).map g := by rw [List.map_cons]

theorem getD_map_lt {α β : Type} (l : List α) (f : α → β) (r : Nat)
    (hr : r < l.length) (d : β) (d2 : α) :
    (l.map f).getD r d = f (l.getD r d2) := by
  rw [List.getD_eq_getElem?_getD, List.getD_eq_getElem?_getD,
    List.getElem?_map, List.getElem?_eq_getElem hr]
  rfl

/-- A list of pairs is recovered from its two projection lists. -/
theorem getD_proj_pair (pl : List (Nat × Nat)) (r : Nat)
    (hr : r < pl.length) :
    ((pl.map Prod.fst).getD r 0, (pl.map Prod.snd).getD r 0) =
      pl.getD r (0, 0) := by
  rw [getD_map_lt pl Prod.fst r hr 0 (0, 0),
    getD_map_lt pl Prod.snd r hr 0 (0, 0)]

/-- The row that `joinIndexed self other` produces for the matched pair
`(indexed position, probing position)`: the probing side's data wins on
a name collision. -/
def mergeRow (A B : Table) (ij : Nat × Nat) : String → Option String :=
  fun n =>
    match alookup B.columns n with
    | some cb => some (cb.cells.getD ij.2 "")
    | none => (alookup A.columns n).map (fun ca => ca.cells.getD ij.1 "")

theorem rowFun_joinIndexed (A B : Table) (cA cB : Column)
    (hNB : NodupKeys B.columns) (hWA : cA.IdxWF) (r : Nat)
    (hr : r < (pairList (buildIndex cA.cells) cB.cells).length) :
    rowFun (joinIndexed A B cA cB) r =
      mergeRow A B ((pairList (buildIndex cA.cells) cB.cells).getD r
        (0, 0)) := by
  funext n
  rw [rowFun, mergeRow]
  unfold joinIndexed
  rw [get_index_fst cA hWA]
  rw [alookup_extend _ _ (nodupKeys_remap B _ hNB) n, alookup_remap,
    alookup_remap]
  cases hcb : alookup B.columns n with
  | some cb =>
    show some (((probePairs (buildIndex cA.cells) cB.cells).2.map
      (fun i => cb.cells.getD i "")).getD r "") = _
    rw [probePairs_snd_pairList, List.map_map]
    rw [getD_map_lt _ _ r hr "" (0, 0)]
    rfl
  | none =>
    cases hca : alookup A.columns n with
    | none => rfl
    | some ca =>
      show some (((probePairs (buildIndex cA.cells) cB.cells).1.map
        (fun i => ca.cells.getD i "")).getD r "") = _
      rw [probePairs_fst_pairList, List.map_map]
      rw [getD_map_lt _ _ r hr "" (0, 0)]
      rfl

theorem rowsMultiset_joinIndexed (A B : Table) (cA cB : Column)
    (hAne : A.columns ≠ []) (hNB : NodupKeys B.columns)
    (hWA : cA.IdxWF) :
    rowsMultiset (joinIndexed A B cA cB) =
      (((pairList (buildIndex cA.cells) cB.cells).map (mergeRow A B) :
        List (String → Option String)) :
        Multiset (String → Option String)) := by
  unfold rowsMultiset
  rw [Multiset.coe_eq_coe]
  have hrows : (joinIndexed A B cA cB).rows_count =
      (pairList (buildIndex cA.cells) cB.cells).length := by
    rw [rows_count_joinIndexed A B cA cB hAne, get_index_fst cA hWA,
      probePairs_fst_pairList, List.length_map]
  rw [hrows]
  have hpointwise : (List.range
      (pairList (buildIndex cA.cells) cB.cells).length).map
      (rowFun (joinIndexed A B cA cB)) =
      (List.range (pairList (buildIndex cA.cells) cB.cells).length).map
        (fun r => mergeRow A B
          ((pairList (buildIndex cA.cells) cB.cells).getD r (0, 0))) := by
    apply List.map_congr_left
    intro r hrr
    exact rowFun_joinIndexed A B cA cB hNB hWA r (List.mem_range.mp hrr)
  rw [hpointwise, list_map_range_getD]

theorem perm_of_nodup_of_mem_iff {α : Type} [DecidableEq α]
    (l1 l2 : List α) (h1 : l1.Nodup) (h2 : l2.Nodup)
    (h : ∀ a, a ∈ l1 ↔ a ∈ l2) : l1.Perm l2 := by
  rw [List.perm_iff_count]
  intro a
  by_cases ha : a ∈ l1
  · rw [List.count_eq_one_of_mem h1 ha,
      List.count_eq_one_of_mem h2 ((h a).mp ha)]
  · rw [List.count_eq_zero.mpr ha,
      List.count_eq_zero.mpr (fun hc => ha ((h a).mpr hc))]

theorem pairList_swap_perm (cellsA cellsB : List String) :
    (pairList (buildIndex cellsA) cellsB).Perm
      ((pairList (buildIndex cellsB) cellsA).map Prod.swap) := by
  apply perm_of_nodup_of_mem_iff
  · exact pairList_nodup cellsA cellsB
  · exact (pairList_nodup cellsB cellsA).map
      (fun a b hab => Prod.swap_injective hab)
  · intro a
    obtain ⟨i, j⟩ := a
    rw [mem_pairList]
    constructor
    · rintro ⟨hi, hj, he⟩
      rw [List.mem_map]
      refine ⟨(j, i), ?_, rfl⟩
      rw [mem_pairList]
      exact ⟨hj, hi, he.symm⟩
    · intro hm
      rw [List.mem_map] at hm
      obtain ⟨⟨j2, i2⟩, hm2, hswap⟩ := hm
      have hij : j2 = j ∧ i2 = i := by
        constructor
        · exact congrArg Prod.snd hswap
        · exact congrArg Prod.fst hswap
      rw [mem_pairList] at hm2
      rw [hij.1, hij.2] at hm2
      exact ⟨hm2.2.1, hm2.1, hm2.2.2.symm⟩

theorem mergeRow_swap_eq (A B : Table) (kA kB : String) (cA cB : Column)
    (hA : alookup A.columns kA = some cA)
    (hB : alookup B.columns kB = some cB)
    (hshared : ∀ n, n ∈ A.columns.map Prod.fst →
      n ∈ B.columns.map Prod.fst → n = kA ∧ n = kB)
    (ij : Nat × Nat)
    (hmem : ij ∈ pairList (buildIndex cA.cells) cB.cells) :
    mergeRow A B ij = mergeRow B A ij.swap := by
  obtain ⟨i, j⟩ := ij
  rw [mem_pairList] at hmem
  funext n
  rw [mergeRow, mergeRow]
  cases hcb : alookup B.columns n with
  | some cb =>
    cases hca : alookup A.columns n with
    | some ca =>
      have hn := hshared n
        ((alookup_isSome_iff _ _).mp (by rw [hca]; rfl))
        ((alookup_isSome_iff _ _).mp (by rw [hcb]; rfl))
      have hcaA : ca = cA := by
        rw [hn.1, hA, Option.some_inj] at hca
        exact hca.symm
      have hcbB : cb = cB := by
        rw [hn.2, hB, Option.some_inj] at hcb
        exact hcb.symm
      show some (cb.cells.getD j "") = some (ca.cells.getD i "")
      rw [hcaA, hcbB, hmem.2.2]
    | none => rfl
  | none =>
    cases hca : alookup A.columns n with
    | some ca => rfl
    | none => rfl

/-- C3 (amended).  When the two tables share no column name other than
(possibly) a common key name, the join computed by indexing the left
key column and probing the right equals — as a multiset of rows over
the union of the column names — the one computed with the roles
swapped. -/
theorem join_symmetric_amended (A B : Table) (kA kB : String)
    (cA cB : Column)
    (hA : alookup A.columns kA = some cA)
    (hB : alookup B.columns kB = some cB)
    (hNA : NodupKeys A.columns) (hNB : NodupKeys B.columns)
    (hWA : cA.IdxWF) (hWB : cB.IdxWF)
    (hshared : ∀ n, n ∈ A.columns.map Prod.fst →
      n ∈ B.columns.map Prod.fst → n = kA ∧ n = kB) :
    rowsMultiset (joinIndexed A B cA cB) =
      rowsMultiset (joinIndexed B A cB cA) := by
  have hAne : A.columns ≠ [] := by
    intro hc
    rw [hc] at hA
    exact absurd hA (by simp [alookup_nil])
  have hBne : B.columns ≠ [] := by
    intro hc
    rw [hc] at hB
    exact absurd hB (by simp [alookup_nil])
  rw [rowsMultiset_joinIndexed A B cA cB hAne hNB hWA,
    rowsMultiset_joinIndexed B A cB cA hBne hNA hWB]
  have hperm := pairList_swap_perm cA.cells cB.cells
  calc ((pairList (buildIndex cA.cells) cB.cells).map (mergeRow A B) :
      Multiset (String → Option String))
      = (((pairList (buildIndex cB.cells) cA.cells).map Prod.swap).map
          (mergeRow A B) : List (String → Option String)) := by
        rw [Multiset.coe_eq_coe]
        exact hperm.map (mergeRow A B)
    _ = ((pairList (buildIndex cB.cells) cA.cells).map (mergeRow B A) :
        List (String → Option String)) := by
        rw [Multiset.coe_eq_coe, List.map_map]
        apply List.Perm.of_eq
        apply List.map_congr_left
        intro ij hij
        show mergeRow A B ij.swap = mergeRow B A ij
        have hswapmem : ij.swap ∈ pairList (buildIndex cA.cells) cB.cells := by
          obtain ⟨j, i⟩ := ij
          rw [mem_pairList] at hij ⊢
          exact ⟨hij.2.1, hij.1, hij.2.2.symm⟩
        rw [mergeRow_swap_eq A B kA kB cA cB hA hB hshared ij.swap
          hswapmem]
        rw [Prod.swap_swap]

/-- C3 counterexample: a shared non-key column `c` takes its values
from the probing side, so swapping the indexed side changes the rows. -/
theorem join_symmetric_counterexample :
    rowsMultiset (joinIndexed
        (Table.mk [("k", Column.new ["1"]), ("c", Column.new ["x"])])
        (Table.mk [("h", Column.new ["1"]), ("c", Column.new ["y"])])
        (Column.new ["1"]) (Column.new ["1"])) ≠
      rowsMultiset (joinIndexed
        (Table.mk [("h", Column.new ["1"]), ("c", Column.new ["y"])])
        (Table.mk [("k", Column.new ["1"]), ("c", Column.new ["x"])])
        (Column.new ["1"]) (Column.new ["1"])) := by
  intro hc
  have h1 : rowsMultiset (joinIndexed
      (Table.mk [("k", Column.new ["1"]), ("c", Column.new ["x"])])
      (Table.mk [("h", Column.new ["1"]), ("c", Column.new ["y"])])
      (Column.new ["1"]) (Column.new ["1"])) =
      {rowFun (joinIndexed
        (Table.mk [("k", Column.new ["1"]), ("c", Column.new ["x"])])
        (Table.mk [("h", Column.new ["1"]), ("c", Column.new ["y"])])
        (Column.new ["1"]) (Column.new ["1"])) 0} := rfl
  have h2 : rowsMultiset (joinIndexed
      (Table.mk [("h", Column.new ["1"]), ("c", Column.new ["y"])])
      (Table.mk [("k", Column.new ["1"]), ("c", Column.new ["x"])])
      (Column.new ["1"]) (Column.new ["1"])) =
      {rowFun (joinIndexed
        (Table.mk [("h", Column.new ["1"]), ("c", Column.new ["y"])])
        (Table.mk [("k", Column.new ["1"]), ("c", Column.new ["x"])])
        (Column.new ["1"]) (Column.new ["1"])) 0} := rfl
  rw [h1, h2, Multiset.singleton_inj] at hc
  have hcc := congrFun hc "c"
  have hv1 : rowFun (joinIndexed
      (Table.mk [("k", Column.new ["1"]), ("c", Column.new ["x"])])
      (Table.mk [("h", Column.new ["1"]), ("c", Column.new ["y"])])
      (Column.new ["1"]) (Column.new ["1"])) 0 "c" = some "y" := rfl
  have hv2 : rowFun (joinIndexed
      (Table.mk [("h", Column.new ["1"]), ("c", Column.new ["y"])])
      (Table.mk [("k", Column.new ["1"]), ("c", Column.new ["x"])])
      (Column.new ["1"]) (Column.new ["1"])) 0 "c" = some "x" := rfl
  rw [hv1, hv2] at hcc
  exact absurd hcc (by decide)

/-- Witness for the amended C3: same key name on both sides, no other
shared columns. -/
theorem join_symmetric_amended_witness :
    rowsMultiset (joinIndexed
        (Table.mk [("k", Column.new ["1", "2"]), ("a", Column.new ["x", "u"])])
        (Table.mk [("k", Column.new ["1", "1"]), ("b", Column.new ["p", "q"])])
        (Column.new ["1", "2"]) (Column.new ["1", "1"])) =
      rowsMultiset (joinIndexed
        (Table.mk [("k", Column.new ["1", "1"]), ("b", Column.new ["p", "q"])])
        (Table.mk [("k", Column.new ["1", "2"]), ("a", Column.new ["x", "u"])])
        (Column.new ["1", "1"]) (Column.new ["1", "2"])) :=
  join_symmetric_amended _ _ "k" "k" _ _ (by decide) (by decide)
    (by decide) (by decide) (Or.inl rfl) (Or.inl rfl) (by decide)

/-! ### C8: TSV round trip -/

theorem string_mk_data (s : String) : String.mk s.data = s := by
  cases s
  rfl

theorem getLast?_append_right {α : Type} (l1 l2 : List α) (h : l2 ≠ []) :
    (l1 ++ l2).getLast? = l2.getLast? := by
  rw [List.getLast?_append]
  cases hl : l2.getLast? with
  | none => exact absurd (List.getLast?_eq_none_iff.mp hl) h
  | some a => rfl

theorem mem_of_getLast?_eq {α : Type} (l : List α) (a : α)
    (h : l.getLast? = some a) : a ∈ l := by
  obtain ⟨ys, rfl⟩ := List.getLast?_eq_some_iff.mp h
  simp

theorem joinSep_singleton (sep : Char) (a : List Char) :
    joinSep sep [a] = a := by
  simp [joinSep, List.intercalate]

theorem joinSep_cons_cons (sep : Char) (a b : List Char)
    (ls : List (List Char)) :
    joinSep sep (a :: b :: ls) = a ++ sep :: joinSep sep (b :: ls) := by
  simp [joinSep, List.intercalate, List.intersperse_cons_cons]

/-- The last character of a separator-joined line is the separator or
the last character of one of the pieces. -/
theorem getLast?_joinSep (sep : Char) :
    ∀ (ls : List (List Char)) (a : Char),
      (joinSep sep ls).getLast? = some a →
      a = sep ∨ ∃ l ∈ ls, l.getLast? = some a := by
  intro ls
  induction ls with
  | nil =>
    intro a ha
    rw [show joinSep sep [] = [] from rfl] at ha
    exact absurd ha (by simp)
  | cons l ls ih =>
    intro a ha
    cases ls with
    | nil =>
      rw [joinSep_singleton] at ha
      exact Or.inr ⟨l, List.mem_cons_self _ _, ha⟩
    | cons l2 ls2 =>
      rw [joinSep_cons_cons] at ha
      rw [getLast?_append_right l (sep :: joinSep sep (l2 :: ls2))
        (by simp)] at ha
      cases hj : joinSep sep (l2 :: ls2) with
      | nil =>
        rw [hj] at ha
        have h2 : some sep = some a := ha
        exact Or.inl (Option.some_inj.mp h2).symm
      | cons x xs =>
        rw [hj, List.getLast?_cons_cons, ← hj] at ha
        rcases ih a ha with h | h
        · exact Or.inl h
        · obtain ⟨l3, hl3, hl3e⟩ := h
          exact Or.inr ⟨l3, List.mem_cons_of_mem _ hl3, hl3e⟩

/-- A character distinct from the separator and absent from every piece
is absent from the join. -/
theorem not_mem_joinSep (sep a : Char) (h : a ≠ sep) :
    ∀ ls : List (List Char), (∀ l ∈ ls, a ∉ l) → a ∉ joinSep sep ls := by
  intro ls
  induction ls with
  | nil =>
    intro _
    rw [show joinSep sep [] = [] from rfl]
    simp
  | cons l ls ih =>
    intro hl
    cases ls with
    | nil =>
      rw [joinSep_singleton]
      exact hl l (List.mem_cons_self _ _)
    | cons l2 ls2 =>
      rw [joinSep_cons_cons]
      intro hmem
      rcases List.mem_append.mp hmem with hm | hm
      · exact hl l (List.mem_cons_self _ _) hm
      · rcases List.mem_cons.mp hm with rfl | hm2
        · exact h rfl
        · exact ih (fun x hx => hl x (List.mem_cons_of_mem _ hx)) hm2

/-- `splitOn` recovers the pieces of a separator-join when no piece holds
the separator. -/
theorem splitOn_joinSep (sep : Char) (ls : List (List Char))
    (h : ∀ l ∈ ls, sep ∉ l) (hne : ls ≠ []) :
    (joinSep sep ls).splitOn sep = ls := by
  rw [joinSep]
  exact List.splitOn_intercalate ls sep h hne

/-- A trim-invariant character list does not end in whitespace. -/
theorem trim_last_not_white (l : List Char) (ht : trimChars l = l)
    (a : Char) (ha : l.getLast? = some a) : rustIsWhitespace a = false := by
  unfold trimChars at ht
  have h2 : (l.dropWhile rustIsWhitespace).reverse.dropWhile rustIsWhitespace
      = l.reverse := by
    have h3 := congrArg List.reverse ht
    rwa [List.reverse_reverse] at h3
  have h4 := List.head?_dropWhile_not rustIsWhitespace
    (l.dropWhile rustIsWhitespace).reverse
  rw [h2, List.head?_reverse, ha] at h4
  exact h4

theorem rustLines_eq (l : List Char) :
    rustLines l =
      (if (l.splitOn (Char.ofNat 10)).getLast? = some [] then
          (l.splitOn (Char.ofNat 10)).dropLast
        else l.splitOn (Char.ofNat 10)).map
        (fun line =>
          if line.getLast? = some (Char.ofNat 13) then line.dropLast
          else line) := rfl

/-- `rustLines` recovers the lines from a newline-join of nonempty lines
that hold no newline and do not end in a carriage return. -/
theorem rustLines_joinSep (ls : List (List Char))
    (hnl : ∀ l ∈ ls, Char.ofNat 10 ∉ l)
    (hne : ∀ l ∈ ls, l ≠ [])
    (hcr : ∀ l ∈ ls, ∀ a, l.getLast? = some a → a ≠ Char.ofNat 13)
    (h0 : ls ≠ []) :
    rustLines (joinSep (Char.ofNat 10) ls) = ls := by
  rw [rustLines_eq, splitOn_joinSep _ _ hnl h0]
  have hlast : ¬(ls.getLast? = some ([] : List Char)) := by
    intro hc
    exact hne [] (mem_of_getLast?_eq _ _ hc) rfl
  rw [if_neg hlast]
  have hid : ∀ l ∈ ls,
      (fun line =>
        if line.getLast? = some (Char.ofNat 13) then line.dropLast
        else line) l = id l := by
    intro l hl
    cases hg : l.getLast? with
    | none =>
      show (if l.getLast? = some (Char.ofNat 13) then l.dropLast else l) = l
      rw [hg, if_neg (by simp)]
    | some a =>
      show (if l.getLast? = some (Char.ofNat 13) then l.dropLast else l) = l
      rw [hg, if_neg]
      intro hc
      exact hcr l hl a hg (Option.some_inj.mp hc)
  rw [List.map_congr_left hid, List.map_id]

/-- A tab-joined line of trim-invariant pieces does not end in a carriage
return, so `rustLines` leaves it intact. -/
theorem joinSep_tab_last_ne_cr (ps : List (List Char))
    (hp : ∀ p ∈ ps, trimChars p = p) (a : Char)
    (ha : (joinSep (Char.ofNat 9) ps).getLast? = some a) :
    a ≠ Char.ofNat 13 := by
  rcases getLast?_joinSep _ _ _ ha with rfl | ⟨l, hl, hlast⟩
  · decide
  · intro hc
    subst hc
    have hw := trim_last_not_white l (hp l hl) _ hlast
    exact absurd hw (by decide)

/-- `Table::column` succeeds exactly on the stored binding. -/
theorem column_ok_iff (t : Table) (n : String) (c : Column) :
    t.column n = .ok c ↔ alookup t.columns n = some c := by
  unfold Table.column
  cases ha : alookup t.columns n with
  | none => simp
  | some c2 => simp

/-- Inverting the successful `mapM` of column lookups done by `to_tsv`. -/
theorem mapM_column_forall2 (t : Table) :
    ∀ (H : List String) (cols : List Column),
      H.mapM t.column = .ok cols →
      List.Forall₂ (fun n c => alookup t.columns n = some c) H cols := by
  intro H
  induction H with
  | nil =>
    intro cols h
    have h2 : (Except.ok ([] : List Column) : Except String (List Column)) =
        .ok cols := h
    rw [Except.ok.injEq] at h2
    subst h2
    exact List.Forall₂.nil
  | cons n H ih =>
    intro cols h
    rw [List.mapM_cons] at h
    cases hc : t.column n with
    | error e =>
      rw [hc] at h
      exact Except.noConfusion h
    | ok c =>
      rw [hc] at h
      have h2 : (H.mapM t.column >>= fun xs =>
          (pure (c :: xs) : Except String (List Column))) = .ok cols := h
      cases hrest : H.mapM t.column with
      | error e =>
        rw [hrest] at h2
        exact Except.noConfusion h2
      | ok cs =>
        rw [hrest] at h2
        have h3 : (Except.ok (c :: cs) : Except String (List Column)) =
            .ok cols := h2
        rw [Except.ok.injEq] at h3
        subst h3
        exact List.Forall₂.cons ((column_ok_iff t n c).mp hc) (ih cs hrest)

/-- Every element on the right of a `Forall₂` is related to a member of
the left list. -/
theorem forall2_mem_right {R : String → Column → Prop} :
    ∀ {H : List String} {cols : List Column}, List.Forall₂ R H cols →
      ∀ c ∈ cols, ∃ n ∈ H, R n c := by
  intro H cols hf
  induction hf with
  | nil =>
    intro c hc
    exact absurd hc (by simp)
  | cons hr hf2 ih =>
    intro c hc
    rcases List.mem_cons.mp hc with rfl | hc2
    · exact ⟨_, List.mem_cons_self _ _, hr⟩
    · obtain ⟨n, hn, hrn⟩ := ih c hc2
      exact ⟨n, List.mem_cons_of_mem _ hn, hrn⟩

/-- Lookup into a name-keyed `zipWith` finds the value at the first
occurrence of the name, which `Forall₂` relates to that name. -/
theorem alookup_zipWith_forall2 {β : Type} (f : Column → β)
    {R : String → Column → Prop} :
    ∀ (H : List String) (cols : List Column), List.Forall₂ R H cols →
      ∀ n ∈ H, ∃ c, R n c ∧
        alookup (List.zipWith (fun m d => ((m, f d) : String × β)) H cols) n
          = some (f c) := by
  intro H cols hf
  induction hf with
  | nil =>
    intro n hn
    exact absurd hn (by simp)
  | @cons a b H2 cols2 hr hf2 ih =>
    intro n hn
    by_cases he : a = n
    · refine ⟨b, he ▸ hr, ?_⟩
      rw [List.zipWith_cons_cons, alookup_cons, if_pos he]
    · have hn2 : n ∈ H2 := by
        rcases List.mem_cons.mp hn with rfl | h2
        · exact absurd rfl he
        · exact h2
      obtain ⟨c, hrc, hl⟩ := ih n hn2
      refine ⟨c, hrc, ?_⟩
      rw [List.zipWith_cons_cons, alookup_cons, if_neg he]
      exact hl

/-- Parsing the serialized header line recovers the header names when
they are tab-free and trim-invariant. -/
theorem parse_header_names (H : List String)
    (htab : ∀ n ∈ H, Char.ofNat 9 ∉ n.data)
    (htrim : ∀ n ∈ H, trimChars n.data = n.data)
    (hH : H ≠ []) :
    ((joinSep (Char.ofNat 9) (H.map String.data)).splitOn (Char.ofNat 9)).map
        (fun f => String.mk (trimChars f)) = H := by
  have h1 : ∀ l ∈ H.map String.data, Char.ofNat 9 ∉ l := by
    intro l hl
    obtain ⟨n, hn, rfl⟩ := List.mem_map.mp hl
    exact htab n hn
  have h2 : H.map String.data ≠ [] := by
    cases H with
    | nil => exact absurd rfl hH
    | cons a as => simp
  rw [splitOn_joinSep _ _ h1 h2, List.map_map]
  have h3 : ∀ n ∈ H,
      ((fun f => String.mk (trimChars f)) ∘ String.data) n = id n := by
    intro n hn
    show String.mk (trimChars n.data) = n
    rw [htrim n hn, string_mk_data]
  rw [List.map_congr_left h3, List.map_id]

/-- The keys of a name-keyed `zipWith` are the names. -/
theorem map_fst_zipWith {β : Type} (g : String → Column → β) :
    ∀ (H : List String) (cols : List Column), H.length = cols.length →
      (List.zipWith (fun n c => ((n, g n c) : String × β)) H cols).map
        Prod.fst = H := by
  intro H
  induction H with
  | nil =>
    intro cols h
    rfl
  | cons n H ih =>
    intro cols h
    cases cols with
    | nil => exact absurd h (by simp)
    | cons c cs =>
      rw [List.zipWith_cons_cons, List.map_cons, ih cs (by simpa using h)]

/-- Lookup commutes with mapping the values of an association list. -/
theorem alookup_map_snd {β γ : Type} (g : β → γ) :
    ∀ (l : List (String × β)) (k : String),
      alookup (l.map (fun p => (p.1, g p.2))) k = (alookup l k).map g := by
  intro l
  induction l with
  | nil => intro k; rfl
  | cons p l ih =>
    intro k
    obtain ⟨a, b⟩ := p
    rw [List.map_cons, alookup_cons, alookup_cons]
    by_cases hp : a = k
    · rw [show ((a, g b) : String × γ).1 = a from rfl, if_pos hp, if_pos hp]
      rfl
    · rw [show ((a, g b) : String × γ).1 = a from rfl, if_neg hp, if_neg hp,
        ih]

/-- `TableBuilder::build` wraps each accumulated cell list in a fresh
column; under unique names lookup recovers it. -/
theorem build_alookup (b : TableBuilder) (hnd : NodupKeys b.columns)
    (n : String) :
    alookup (b.build).columns n = (alookup b.columns n).map Column.new := by
  show alookup
    (b.columns.foldl (fun acc p => ainsert acc p.1 (Column.new p.2)) []) n = _
  have hmap : b.columns.foldl
      (fun acc p => ainsert acc p.1 (Column.new p.2)) [] =
      (b.columns.map (fun p => (p.1, Column.new p.2))).foldl
        (fun acc q => ainsert acc q.1 q.2) [] := by
    rw [List.foldl_map]
  have hnd2 : NodupKeys (b.columns.map (fun p => (p.1, Column.new p.2))) := by
    unfold NodupKeys at hnd ⊢
    rw [List.map_map]
    exact hnd
  rw [hmap, alookup_foldl_ainsert, lastVal_eq_alookup_of_nodup _ hnd2,
    alookup_map_snd Column.new b.columns n]
  cases (alookup b.columns n).map Column.new <;> rfl

/-- A fresh builder is the zip of the header with empty prefixes of the
columns it will accumulate. -/
theorem tableBuilder_new_zipWith :
    ∀ (H : List String) (cols : List Column), H.length = cols.length →
      TableBuilder.new H =
        ⟨List.zipWith (fun n c => (n, c.cells.take 0)) H cols⟩ := by
  intro H
  induction H with
  | nil =>
    intro cols h
    cases cols with
    | nil => rfl
    | cons c cs => exact absurd h (by simp)
  | cons n H ih =>
    intro cols h
    cases cols with
    | nil => exact absurd h (by simp)
    | cons c cs =>
      have h3 : H.map (fun m => ((m, ([] : List String)))) =
          List.zipWith (fun m d => (m, d.cells.take 0)) H cs :=
        congrArg TableBuilder.columns (ih cs (by simpa using h))
      refine congrArg TableBuilder.mk ?_
      show (n, ([] : List String)) :: H.map (fun m => (m, [])) =
        List.zipWith (fun m d => (m, d.cells.take 0)) (n :: H) (c :: cs)
      rw [List.zipWith_cons_cons, List.take_zero, h3]

/-- Appending one parsed row to a builder extends every accumulated
prefix by that row's cell. -/
theorem zipWith_row_step (r : Nat) :
    ∀ (H : List String) (cols : List Column),
      (∀ c ∈ cols, r < c.cells.length) →
      ((List.zipWith
          (fun n c => ((n, c.cells.take r) : String × List String)) H
          cols).zip (cols.map (fun c => c.cells.getD r ""))).map
          (fun pc => (pc.1.1, pc.1.2 ++ [pc.2])) =
        List.zipWith (fun n c => (n, c.cells.take (r + 1))) H cols := by
  intro H
  induction H with
  | nil =>
    intro cols hr
    rfl
  | cons n H ih =>
    intro cols hr
    cases cols with
    | nil => rfl
    | cons c cs =>
      have hc : r < c.cells.length := hr c (List.mem_cons_self _ _)
      have hcs : ∀ d ∈ cs, r < d.cells.length := fun d hd =>
        hr d (List.mem_cons_of_mem _ hd)
      rw [List.zipWith_cons_cons, List.map_cons, List.zip_cons_cons,
        List.map_cons, List.zipWith_cons_cons, ih cs hcs]
      have ht : c.cells.take r ++ [c.cells.getD r ""] =
          c.cells.take (r + 1) := by
        rw [List.take_succ, List.getD_eq_getElem?_getD,
          List.getElem?_eq_getElem hc]
        rfl
      show (n, c.cells.take r ++ [c.cells.getD r ""]) :: _ = _
      rw [ht]

/-- `TableBuilder::add_row` on a row of matching width pushes one cell
per column. -/
theorem add_row_zipWith (H : List String) (cols : List Column) (r : Nat)
    (hlen : H.length = cols.length)
    (hr : ∀ c ∈ cols, r < c.cells.length) :
    TableBuilder.add_row
        ⟨List.zipWith (fun n c => (n, c.cells.take r)) H cols⟩
        (cols.map (fun c => c.cells.getD r "")) =
      .ok ⟨List.zipWith (fun n c => (n, c.cells.take (r + 1))) H cols⟩ := by
  unfold TableBuilder.add_row
  split
  · rename_i hcond
    exfalso
    apply hcond
    show (cols.map (fun c => c.cells.getD r "")).length =
      (List.zipWith
        (fun n c => ((n, c.cells.take r) : String × List String)) H
        cols).length
    rw [List.length_map, List.length_zipWith, hlen, Nat.min_self]
  · refine congrArg Except.ok (congrArg TableBuilder.mk ?_)
    exact zipWith_row_step r H cols hr

/-- Once every row is accumulated the prefixes are the full cell lists. -/
theorem zipWith_take_all (R : Nat) :
    ∀ (H : List String) (cols : List Column),
      (∀ c ∈ cols, c.cells.length = R) →
      List.zipWith
          (fun n c => ((n, c.cells.take R) : String × List String)) H cols =
        List.zipWith (fun n c => (n, c.cells)) H cols := by
  intro H
  induction H with
  | nil =>
    intro cols h
    rfl
  | cons n H ih =>
    intro cols h
    cases cols with
    | nil => rfl
    | cons c cs =>
      rw [List.zipWith_cons_cons, List.zipWith_cons_cons,
        ih cs (fun d hd => h d (List.mem_cons_of_mem _ hd))]
      have ht : c.cells.take R = c.cells := by
        rw [← h c (List.mem_cons_self _ _), List.take_length]
      rw [ht]

/-- Splitting and trimming a serialized row recovers its cells when they
are tab-free and trim-invariant. -/
theorem parse_row_fields (cols : List Column) (r : Nat)
    (hne : cols ≠ [])
    (htab : ∀ c ∈ cols, Char.ofNat 9 ∉ (c.cells.getD r "").data)
    (htrim : ∀ c ∈ cols,
      trimChars (c.cells.getD r "").data = (c.cells.getD r "").data) :
    ((tsvRowLine cols r).splitOn (Char.ofNat 9)).map
        (fun f => String.mk (trimChars f)) =
      cols.map (fun c => c.cells.getD r "") := by
  have h1 : ∀ l ∈ cols.map (fun c => (c.cells.getD r "").data),
      Char.ofNat 9 ∉ l := by
    intro l hl
    obtain ⟨c, hc, rfl⟩ := List.mem_map.mp hl
    exact htab c hc
  have h2 : cols.map (fun c => (c.cells.getD r "").data) ≠ [] := by
    cases cols with
    | nil => exact absurd rfl hne
    | cons c cs => simp
  unfold tsvRowLine
  rw [splitOn_joinSep _ _ h1 h2, List.map_map]
  refine List.map_congr_left ?_
  intro c hc
  show String.mk (trimChars (c.cells.getD r "").data) = c.cells.getD r ""
  rw [htrim c hc, string_mk_data]

/-- Folding the serialized rows through the parser's builder loop
accumulates exactly the original cells. -/
theorem parse_rows_fold (H : List String) (cols : List Column) (R : Nat)
    (hlen : H.length = cols.length) (hne : cols ≠ [])
    (hcl : ∀ c ∈ cols, c.cells.length = R)
    (htab : ∀ c ∈ cols, ∀ s ∈ c.cells, Char.ofNat 9 ∉ s.data)
    (htrim : ∀ c ∈ cols, ∀ s ∈ c.cells, trimChars s.data = s.data)
    (hrl : ∀ r < R, tsvRowLine cols r ≠ []) :
    ∀ (k r : Nat), r + k = R →
      List.foldlM
        (fun (b : TableBuilder) line =>
          if line.isEmpty then pure b
          else b.add_row ((line.splitOn (Char.ofNat 9)).map
            (fun f => String.mk (trimChars f))))
        (⟨List.zipWith (fun n c => (n, c.cells.take r)) H cols⟩ :
          TableBuilder)
        ((List.range' r k).map (tsvRowLine cols)) =
      .ok ⟨List.zipWith (fun n c => (n, c.cells.take R)) H cols⟩ := by
  intro k
  induction k with
  | zero =>
    intro r hr
    have hrR : r = R := by omega
    subst hrR
    rfl
  | succ k ih =>
    intro r hr
    have hrR : r < R := by omega
    have hrlt : ∀ c ∈ cols, r < c.cells.length := by
      intro c hc
      rw [hcl c hc]
      exact hrR
    have htab2 : ∀ c ∈ cols, Char.ofNat 9 ∉ (c.cells.getD r "").data :=
      fun c hc => htab c hc _ (getD_mem_of_lt _ _ (hrlt c hc))
    have htrim2 : ∀ c ∈ cols,
        trimChars (c.cells.getD r "").data = (c.cells.getD r "").data :=
      fun c hc => htrim c hc _ (getD_mem_of_lt _ _ (hrlt c hc))
    have hline : ¬((tsvRowLine cols r).isEmpty = true) := by
      have h5 : (tsvRowLine cols r).isEmpty = false :=
        List.isEmpty_eq_false.mpr (hrl r hrR)
      intro hc
      rw [h5] at hc
      exact Bool.noConfusion hc
    rw [List.range'_succ, List.map_cons, List.foldlM_cons]
    have hhead :
        (if (tsvRowLine cols r).isEmpty = true then
          (pure (⟨List.zipWith (fun n c => (n, c.cells.take r)) H cols⟩ :
            TableBuilder) : Except String TableBuilder)
        else TableBuilder.add_row
          ⟨List.zipWith (fun n c => (n, c.cells.take r)) H cols⟩
          (((tsvRowLine cols r).splitOn (Char.ofNat 9)).map
            (fun f => String.mk (trimChars f)))) =
        .ok ⟨List.zipWith (fun n c => (n, c.cells.take (r + 1))) H cols⟩ := by
      rw [if_neg hline, parse_row_fields cols r hne htab2 htrim2,
        add_row_zipWith H cols r hlen hrlt]
    rw [hhead]
    show List.foldlM
        (fun (b : TableBuilder) line =>
          if line.isEmpty then pure b
          else b.add_row ((line.splitOn (Char.ofNat 9)).map
            (fun f => String.mk (trimChars f))))
        (⟨List.zipWith (fun n c => (n, c.cells.take (r + 1))) H cols⟩ :
          TableBuilder)
        ((List.range' (r + 1) k).map (tsvRowLine cols)) =
      .ok ⟨List.zipWith (fun n c => (n, c.cells.take R)) H cols⟩
    exact ih (r + 1) (by omega)

/-- `parse_tsv` on a nonempty recovered line list reduces to the builder
loop over the tail, seeded from the head line. -/
theorem parse_tsv_cons (hline : List Char) (rlines : List (List Char))
    (hrec : ((rustLines
        (String.mk (joinSep (Char.ofNat 10) (hline :: rlines))).data).drop
        0).dropWhile List.isEmpty = hline :: rlines) :
    Table.parse_tsv (String.mk (joinSep (Char.ofNat 10) (hline :: rlines)))
        0 =
      (rlines.foldlM
        (fun (b : TableBuilder) line =>
          if line.isEmpty then pure b
          else b.add_row ((line.splitOn (Char.ofNat 9)).map
            (fun f => String.mk (trimChars f))))
        (TableBuilder.new ((hline.splitOn (Char.ofNat 9)).map
          (fun f => String.mk (trimChars f))))) >>=
        (fun b => pure b.build) := by
  unfold Table.parse_tsv
  rw [hrec]

/-- Every entry of a name-keyed `zipWith` carries a value related to its
name by the `Forall₂`. -/
theorem mem_zipWith_forall2 {β : Type} (f : Column → β)
    {R : String → Column → Prop} :
    ∀ (H : List String) (cols : List Column), List.Forall₂ R H cols →
      ∀ n (w : β),
        (n, w) ∈ List.zipWith (fun m d => ((m, f d) : String × β)) H cols →
        ∃ d, R n d ∧ w = f d := by
  intro H cols hf
  induction hf with
  | nil =>
    intro n w hw
    exact absurd hw (by simp)
  | @cons a b H2 cols2 hr hf2 ih =>
    intro n w hw
    rw [List.zipWith_cons_cons] at hw
    rcases List.mem_cons.mp hw with he | hw2
    · have h1 : n = a := congrArg Prod.fst he
      have h2 : w = f b := congrArg Prod.snd he
      exact ⟨b, h1.symm ▸ hr, h2⟩
    · exact ih n w hw2

/-- Lookup into `build` when every accumulated entry for the key holds
the same cell list (duplicate header names fetch the same column, so no
uniqueness of names is needed). -/
theorem build_alookup_const (b : TableBuilder) (n : String)
    (v : List String) (hk : n ∈ b.columns.map Prod.fst)
    (hv : ∀ w, (n, w) ∈ b.columns → w = v) :
    alookup (b.build).columns n = some (Column.new v) := by
  show alookup
    (b.columns.foldl (fun acc p => ainsert acc p.1 (Column.new p.2)) []) n = _
  have hmap : b.columns.foldl
      (fun acc p => ainsert acc p.1 (Column.new p.2)) [] =
      (b.columns.map (fun p => (p.1, Column.new p.2))).foldl
        (fun acc q => ainsert acc q.1 q.2) [] := by
    rw [List.foldl_map]
  rw [hmap, alookup_foldl_ainsert]
  have hk2 : n ∈ (b.columns.map (fun p => (p.1, Column.new p.2))).map
      Prod.fst := by
    rw [List.map_map]
    exact hk
  have hsome := (lastVal_isSome_iff
    (b.columns.map (fun p => (p.1, Column.new p.2))) n).mpr hk2
  cases hl : lastVal (b.columns.map (fun p => (p.1, Column.new p.2))) n with
  | none =>
    rw [hl] at hsome
    exact absurd hsome (by simp)
  | some w =>
    have hmem := lastVal_mem _ _ _ hl
    obtain ⟨p, hp, hpe⟩ := List.mem_map.mp hmem
    have h1 : p.1 = n := congrArg Prod.fst hpe
    have h2 : Column.new p.2 = w := congrArg Prod.snd hpe
    have harg : (n, p.2) ∈ b.columns := by
      rw [← h1]
      exact hp
    have h3 : p.2 = v := hv p.2 harg
    show some w = some (Column.new v)
    rw [← h2, h3]

/-- C8: serializing a table with header `H` (tab delimiter) via `to_tsv`
and re-parsing the text with `parse_tsv` at `skip_lines = 0` restores
every column named in `H` with identical cell sequences in row order,
provided the header names and all cells hold no tab or newline and are
unchanged by Unicode trimming, every named column has the table's row
count, and neither the header line nor any serialized row line is
blank. -/
theorem tsv_round_trip (t : Table) (H : List String) (cols : List Column)
    (hcols : H.mapM t.column = .ok cols)
    (hH : H ≠ []) (hlen : t.EqLen)
    (hnames : ∀ n ∈ H, Char.ofNat 9 ∉ n.data ∧ Char.ofNat 10 ∉ n.data ∧
      trimChars n.data = n.data)
    (hcells : ∀ c ∈ cols, ∀ s ∈ c.cells, Char.ofNat 9 ∉ s.data ∧
      Char.ofNat 10 ∉ s.data ∧ trimChars s.data = s.data)
    (hhl : joinSep (Char.ofNat 9) (H.map String.data) ≠ [])
    (hrl : ∀ r < t.rows_count, tsvRowLine cols r ≠ []) :
    ∃ text parsed, t.to_tsv H = .ok text ∧
      Table.parse_tsv text 0 = .ok parsed ∧
      ∀ n ∈ H, ∃ c c2, alookup t.columns n = some c ∧
        alookup parsed.columns n = some c2 ∧ c2.cells = c.cells := by
  have hf2 := mapM_column_forall2 t H cols hcols
  have hlen2 : H.length = cols.length := hf2.length_eq
  have hclen : ∀ c ∈ cols, c.cells.length = t.rows_count := by
    intro c hc
    obtain ⟨n, hn, hrel⟩ := forall2_mem_right hf2 c hc
    exact hlen (n, c) (alookup_mem _ _ _ hrel)
  have hcne : cols ≠ [] := by
    intro hc
    subst hc
    rw [List.length_nil] at hlen2
    exact hH (List.length_eq_zero.mp hlen2)
  have htsv : t.to_tsv H = .ok (String.mk (joinSep (Char.ofNat 10)
      (joinSep (Char.ofNat 9) (H.map String.data) ::
        (List.range t.rows_count).map (tsvRowLine cols)))) := by
    unfold Table.to_tsv
    rw [hcols]
    rfl
  have hlineA : ∀ l ∈ (joinSep (Char.ofNat 9) (H.map String.data) ::
      (List.range t.rows_count).map (tsvRowLine cols)),
      Char.ofNat 10 ∉ l := by
    intro l hl
    rcases List.mem_cons.mp hl with rfl | hl2
    · refine not_mem_joinSep (Char.ofNat 9) (Char.ofNat 10) (by decide)
        _ ?_
      intro p hp
      obtain ⟨n, hn, rfl⟩ := List.mem_map.mp hp
      exact (hnames n hn).2.1
    · obtain ⟨r, hr, rfl⟩ := List.mem_map.mp hl2
      have hrR : r < t.rows_count := List.mem_range.mp hr
      unfold tsvRowLine
      refine not_mem_joinSep (Char.ofNat 9) (Char.ofNat 10) (by decide)
        _ ?_
      intro p hp
      obtain ⟨c, hc, rfl⟩ := List.mem_map.mp hp
      refine (hcells c hc _ (getD_mem_of_lt _ _ ?_)).2.1
      rw [hclen c hc]
      exact hrR
  have hlineB : ∀ l ∈ (joinSep (Char.ofNat 9) (H.map String.data) ::
      (List.range t.rows_count).map (tsvRowLine cols)), l ≠ [] := by
    intro l hl
    rcases List.mem_cons.mp hl with rfl | hl2
    · exact hhl
    · obtain ⟨r, hr, rfl⟩ := List.mem_map.mp hl2
      exact hrl r (List.mem_range.mp hr)
  have hlineC : ∀ l ∈ (joinSep (Char.ofNat 9) (H.map String.data) ::
      (List.range t.rows_count).map (tsvRowLine cols)),
      ∀ a, l.getLast? = some a → a ≠ Char.ofNat 13 := by
    intro l hl a ha
    rcases List.mem_cons.mp hl with rfl | hl2
    · refine joinSep_tab_last_ne_cr _ ?_ a ha
      intro p hp
      obtain ⟨n, hn, rfl⟩ := List.mem_map.mp hp
      exact (hnames n hn).2.2
    · obtain ⟨r, hr, rfl⟩ := List.mem_map.mp hl2
      have hrR : r < t.rows_count := List.mem_range.mp hr
      refine joinSep_tab_last_ne_cr _ ?_ a ha
      intro p hp
      obtain ⟨c, hc, rfl⟩ := List.mem_map.mp hp
      refine (hcells c hc _ (getD_mem_of_lt _ _ ?_)).2.2
      rw [hclen c hc]
      exact hrR
  have hrust : rustLines (joinSep (Char.ofNat 10)
      (joinSep (Char.ofNat 9) (H.map String.data) ::
        (List.range t.rows_count).map (tsvRowLine cols))) =
      joinSep (Char.ofNat 9) (H.map String.data) ::
        (List.range t.rows_count).map (tsvRowLine cols) :=
    rustLines_joinSep _ hlineA hlineB hlineC (by simp)
  have hcond : ¬((joinSep (Char.ofNat 9) (H.map String.data)).isEmpty
      = true) := by
    have h5 : (joinSep (Char.ofNat 9) (H.map String.data)).isEmpty =
        false := List.isEmpty_eq_false.mpr hhl
    intro hc
    rw [h5] at hc
    exact Bool.noConfusion hc
  have hls : ((rustLines (String.mk (joinSep (Char.ofNat 10)
      (joinSep (Char.ofNat 9) (H.map String.data) ::
        (List.range t.rows_count).map (tsvRowLine cols)))).data).drop
      0).dropWhile List.isEmpty =
      joinSep (Char.ofNat 9) (H.map String.data) ::
        (List.range t.rows_count).map (tsvRowLine cols) := by
    show ((rustLines (joinSep (Char.ofNat 10)
      (joinSep (Char.ofNat 9) (H.map String.data) ::
        (List.range t.rows_count).map (tsvRowLine cols)))).drop
      0).dropWhile List.isEmpty = _
    rw [hrust]
    show (joinSep (Char.ofNat 9) (H.map String.data) ::
        (List.range t.rows_count).map (tsvRowLine cols)).dropWhile
        List.isEmpty = _
    rw [List.dropWhile_cons, if_neg hcond]
  refine ⟨String.mk (joinSep (Char.ofNat 10)
      (joinSep (Char.ofNat 9) (H.map String.data) ::
        (List.range t.rows_count).map (tsvRowLine cols))),
    (TableBuilder.mk (List.zipWith (fun n c => (n, c.cells)) H cols)).build,
    htsv, ?_, ?_⟩
  · rw [parse_tsv_cons _ _ hls,
      parse_header_names H (fun n hn => (hnames n hn).1)
        (fun n hn => (hnames n hn).2.2) hH,
      tableBuilder_new_zipWith H cols hlen2, List.range_eq_range',
      parse_rows_fold H cols t.rows_count hlen2 hcne hclen
        (fun c hc s hs => (hcells c hc s hs).1)
        (fun c hc s hs => (hcells c hc s hs).2.2) hrl t.rows_count 0
        (by omega)]
    show (Except.ok (TableBuilder.mk (List.zipWith
        (fun n c => (n, c.cells.take t.rows_count)) H cols)).build :
        Except String Table) =
      Except.ok (TableBuilder.mk (List.zipWith
        (fun n c => (n, c.cells)) H cols)).build
    rw [zipWith_take_all t.rows_count H cols hclen]
  · intro n hn
    obtain ⟨c, hrel, _⟩ :=
      alookup_zipWith_forall2 (fun d => d.cells) H cols hf2 n hn
    refine ⟨c, Column.new c.cells, hrel, ?_, rfl⟩
    have hk : n ∈ (TableBuilder.mk (List.zipWith
        (fun m d => ((m, d.cells) : String × List String)) H
        cols)).columns.map Prod.fst := by
      show n ∈ (List.zipWith
        (fun m d => ((m, d.cells) : String × List String)) H cols).map
        Prod.fst
      rw [map_fst_zipWith (fun m d => d.cells) H cols hlen2]
      exact hn
    have hv : ∀ w, (n, w) ∈ (TableBuilder.mk (List.zipWith
        (fun m d => ((m, d.cells) : String × List String)) H
        cols)).columns → w = c.cells := by
      intro w hw
      obtain ⟨d, hrd, rfl⟩ :=
        mem_zipWith_forall2 (fun d => d.cells) H cols hf2 n w hw
      have hdc : d = c := Option.some_inj.mp (hrd.symm.trans hrel)
      rw [hdc]
    exact build_alookup_const _ n c.cells hk hv

/-- Witness for C8 at a one-column, one-row table. -/
theorem tsv_round_trip_witness :
    ∃ text parsed,
      (Table.mk [("a", Column.new ["x"])]).to_tsv ["a"] = .ok text ∧
      Table.parse_tsv text 0 = .ok parsed ∧
      ∀ n ∈ ["a"], ∃ c c2,
        alookup (Table.mk [("a", Column.new ["x"])]).columns n = some c ∧
        alookup parsed.columns n = some c2 ∧ c2.cells = c.cells :=
  tsv_round_trip (Table.mk [("a", Column.new ["x"])]) ["a"]
    [Column.new ["x"]] rfl (by decide)
    (by unfold Table.EqLen; decide) (by decide) (by decide) (by decide)
    (by decide)

/-- C8 counterexample: a cell holding a tab serializes into a row line
that splits into one field too many, so re-parsing the serialized text
fails instead of restoring the table. -/
theorem tsv_round_trip_counterexample :
    ∃ text e,
      (Table.mk [("a", Column.new [String.mk
          ['x', Char.ofNat 9, 'y']])]).to_tsv ["a"] = .ok text ∧
      Table.parse_tsv text 0 = .error e :=
  ⟨_, _, rfl, rfl⟩

end SimpleSql
